import Mathlib

/-!
# simplebf: loop index and execution engine

A shallow embedding of `src/simplebf.c`.

Conventions of the embedding.

* A byte is a `Nat`; the instruction bytes are written as their ASCII codes:
  `>` 62, `<` 60, `+` 43, `-` 45, `.` 46, `,` 44, `[` 91, `]` 93.
* `code : List Nat` is the content of the buffer `code`; reading `code[i]` past the
  end of the list gives the terminating `'\0'`, so `code[i]` is `code.getD i 0`.
* A pointer is an `Option Nat`: `none` is `NULL`, `some k` is the address of the
  `k`-th object `malloc` handed out for that kind of object (`loop` nodes and
  `memory_block`s live in two separate heaps, each a `List` indexed by address).
* `malloc` is assumed to succeed, positions are `Nat` (the C types `int` and
  `unsigned int` agree with `Nat` for programs shorter than `2^31` bytes), and a
  cell is an `unsigned char`, so stores are reduced modulo 256.
* Dereferencing `NULL` (or an address outside the heap, or indexing `m` outside
  `0 .. MSIZE-1`) is undefined behaviour in C; the embedding makes it a distinct
  outcome (`segv`, `crashed`) instead of giving it a meaning.
* `free` has no observable effect and is not modelled; `stderr` is not modelled.
* `register_loops` and `simplebf` are embedded as functions of the buffer they are
  given; what the loader really puts in that buffer is `fill_program_array`.
-/

namespace SimpleBF

/-! ## Loop index -/

/-- The C macro `MSIZE`: number of cells of one memory block. -/
def MSIZE : Nat := 30000

/-- The C `struct loop`. -/
structure loop where
  start : Nat
  end_ : Nat
  next_in_list : Option Nat
  previous_in_stack : Option Nat
deriving DecidableEq

/-- The C `struct loops`, together with the heap holding its `loop` nodes. -/
structure loops where
  heap : List loop
  first : Option Nat
  current_in_list : Option Nat
  current_in_stack : Option Nat
deriving DecidableEq

/-- What a C function that returns a pointer or a status can do. -/
inductive Outcome (α : Type) where
  /-- normal return with a value -/
  | ok : α → Outcome α
  /-- the function returned `NULL` (its way of reporting an error) -/
  | null : Outcome α
  /-- a `NULL` pointer was dereferenced: undefined behaviour -/
  | segv : Outcome α
deriving DecidableEq

/-- The assignment `p->next_in_list = v` in the heap of loop nodes. -/
def set_next_in_list (heap : List loop) (p : Nat) (v : Option Nat) : List loop :=
  match heap[p]? with
  | some n => heap.set p { n with next_in_list := v }
  | none => heap

/-- The C function `push_loop` (the returned number is its `int` result). -/
def push_loop (r : loops) (start_position : Nat) : loops × Nat :=
  let l : Nat := r.heap.length
  let node : loop :=
    { start := start_position, end_ := 0,
      previous_in_stack := r.current_in_stack, next_in_list := none }
  let heap := r.heap ++ [node]
  match r.current_in_list with
  | some c =>
    ({ heap := set_next_in_list heap c (some l), first := r.first,
       current_in_list := some l, current_in_stack := some l }, 0)
  | none =>
    ({ heap := heap, first := some l,
       current_in_list := some l, current_in_stack := some l }, 0)

/-- The C function `pop_loop`: it dereferences `loops->current_in_stack` unchecked. -/
def pop_loop (r : loops) (end_position : Nat) : Outcome (loops × Nat) :=
  match r.current_in_stack with
  | none => .segv
  | some k =>
    match r.heap[k]? with
    | none => .segv
    | some n =>
      .ok ({ r with heap := r.heap.set k { n with end_ := end_position },
                    current_in_stack := n.previous_in_stack }, 0)

/-- The `for` loop of `register_loops`, started at index `i`; the first argument is
the part of the buffer from `code[i]` on. -/
def register_from : List Nat → Nat → loops → Outcome loops
  | [], _, r => .ok r
  | c :: rest, i, r =>
    if c = 0 then .ok r
    else if c = 91 then
      match push_loop r i with
      | (r1, e) => if e ≠ 0 then .null else register_from rest (i + 1) r1
    else if c = 93 then
      match pop_loop r i with
      | .ok (r1, e) => if e ≠ 0 then .null else register_from rest (i + 1) r1
      | .null => .null
      | .segv => .segv
    else register_from rest (i + 1) r

/-- The C function `register_loops`. -/
def register_loops (code : List Nat) : Outcome loops :=
  register_from code 0
    { heap := [], first := none, current_in_list := none, current_in_stack := none }

/-- The `while` loop of `find_loop_by_start`, from the node pointer `l`. The walk is
given `fuel` iterations; the outer `none` stands for a walk that does not come to an
end within them (or leaves the heap), the inner one for the result `NULL`. -/
def walk_by_start (heap : List loop) (start_position : Nat) :
    Nat → Option Nat → Option (Option loop)
  | _, none => some none
  | 0, some _ => none
  | fuel + 1, some k =>
    match heap[k]? with
    | none => none
    | some n =>
      if start_position = n.start then some (some n)
      else walk_by_start heap start_position fuel n.next_in_list

/-- The `while` loop of `find_loop_by_end`, from the node pointer `l`. -/
def walk_by_end (heap : List loop) (end_position : Nat) :
    Nat → Option Nat → Option (Option loop)
  | _, none => some none
  | 0, some _ => none
  | fuel + 1, some k =>
    match heap[k]? with
    | none => none
    | some n =>
      if end_position = n.end_ then some (some n)
      else walk_by_end heap end_position fuel n.next_in_list

/-- The C function `find_loop_by_start`; a list of `n` nodes is walked in at most
`n` iterations. -/
def find_loop_by_start (r : loops) (start_position : Nat) : Option (Option loop) :=
  walk_by_start r.heap start_position r.heap.length r.first

/-- The C function `find_loop_by_end`. -/
def find_loop_by_end (r : loops) (end_position : Nat) : Option (Option loop) :=
  walk_by_end r.heap end_position r.heap.length r.first

/-- The query `matchOf` of the loop index: `find_loop_by_start(p)->end` at a `[`,
`find_loop_by_end(p)->start` at a `]`; `none` when the lookup finds no loop or `p`
holds neither symbol. -/
def matchOf (code : List Nat) (r : loops) (p : Nat) : Option Nat :=
  if code.getD p 0 = 91 then
    match find_loop_by_start r p with
    | some (some l) => some l.end_
    | _ => none
  else if code.getD p 0 = 93 then
    match find_loop_by_end r p with
    | some (some l) => some l.start
    | _ => none
  else none

/-! ## Execution engine -/

/-- The C `struct memory_block`; the array `m` is the map from an index to its cell. -/
structure memory_block where
  m : Nat → Nat
  next : Option Nat
  previous : Option Nat

/-- The assignment `p->next = v` in the heap of memory blocks. -/
def set_next (heap : List memory_block) (p : Nat) (v : Option Nat) : List memory_block :=
  match heap[p]? with
  | some b => heap.set p { b with next := v }
  | none => heap

/-- The assignment `p->previous = v` in the heap of memory blocks. -/
def set_previous (heap : List memory_block) (p : Nat) (v : Option Nat) :
    List memory_block :=
  match heap[p]? with
  | some b => heap.set p { b with previous := v }
  | none => heap

/-- The C function `new_memory_block`: the new heap and the pointer it returns. -/
def new_memory_block (heap : List memory_block) (previous next : Option Nat) :
    List memory_block × Option Nat :=
  let r : Nat := heap.length
  let heap1 := heap ++ [{ m := fun _ => 0, next := next, previous := previous }]
  let heap2 := match previous with
    | some p => set_next heap1 p (some r)
    | none => heap1
  let heap3 := match next with
    | some q => set_previous heap2 q (some r)
    | none => heap2
  (heap3, some r)

/-- The variables of `simplebf` at the head of its `for` loop, with the heap of memory
blocks and the two streams. `mem` points to the array `m` of a block and is kept as
the address of that block. -/
structure State where
  blocks : List memory_block
  first_block : Nat
  current_block : Nat
  mem : Nat
  pc : Nat
  mc : Nat
  input : List Nat
  output : List Nat

/-- Where a run of `simplebf` stands. -/
inductive Run where
  /-- at the head of the `for` loop -/
  | running : State → Run
  /-- `simplebf` returned this status, in this state -/
  | returned : Nat → State → Run
  /-- undefined behaviour was hit -/
  | crashed : Run

/-- The C call `getchar()`: the next byte of the input, or `EOF` (-1). -/
def getchar (input : List Nat) : Int × List Nat :=
  match input with
  | [] => (-1, [])
  | b :: rest => (((b % 256 : Nat) : Int), rest)

/-- The read `mem[mc]`. -/
def peek (s : State) : Option Nat :=
  match s.blocks[s.mem]? with
  | some b => if s.mc < MSIZE then some (b.m s.mc) else none
  | none => none

/-- The write `mem[mc] = v`. -/
def poke (s : State) (v : Nat) : Option State :=
  match s.blocks[s.mem]? with
  | some b =>
    if s.mc < MSIZE then
      some { s with blocks :=
        s.blocks.set s.mem { b with m := fun j => if j = s.mc then v else b.m j } }
    else none
  | none => none

/-- One iteration of the `for` loop of `simplebf`: the test `code[pc] != 0`, the
`switch`, and the `pc++`. (`mc--; if (mc == -1)` is the test `mc = 0` before the
decrement.) -/
def step (code : List Nat) (lps : loops) (s : State) : Run :=
  let c := code.getD s.pc 0
  if c = 0 then .returned 0 s
  else if c = 62 then
    if s.mc + 1 = MSIZE then
      match s.blocks[s.current_block]? with
      | none => .crashed
      | some b =>
        match b.next with
        | some nx =>
          .running { s with current_block := nx, mc := 0, mem := nx, pc := s.pc + 1 }
        | none =>
          match new_memory_block s.blocks (some s.current_block) none with
          | (_, none) => .returned 1 s
          | (heap, some r) =>
            .running { s with blocks := heap, current_block := r, mc := 0, mem := r,
                              pc := s.pc + 1 }
    else .running { s with mc := s.mc + 1, pc := s.pc + 1 }
  else if c = 60 then
    if s.mc = 0 then
      match s.blocks[s.current_block]? with
      | none => .crashed
      | some b =>
        match b.previous with
        | none => .returned 1 s
        | some pv =>
          .running { s with current_block := pv, mc := MSIZE - 1, mem := pv,
                            pc := s.pc + 1 }
    else .running { s with mc := s.mc - 1, pc := s.pc + 1 }
  else if c = 43 then
    match peek s with
    | none => .crashed
    | some v =>
      match poke s ((v + 1) % 256) with
      | none => .crashed
      | some s1 => .running { s1 with pc := s.pc + 1 }
  else if c = 45 then
    match peek s with
    | none => .crashed
    | some v =>
      match poke s (((v : Int) - 1) % 256).toNat with
      | none => .crashed
      | some s1 => .running { s1 with pc := s.pc + 1 }
  else if c = 46 then
    match peek s with
    | none => .crashed
    | some v => .running { s with output := s.output ++ [v], pc := s.pc + 1 }
  else if c = 44 then
    match poke s (((getchar s.input).1) % 256).toNat with
    | none => .crashed
    | some s1 => .running { s1 with input := (getchar s.input).2, pc := s.pc + 1 }
  else if c = 91 then
    match peek s with
    | none => .crashed
    | some v =>
      if v = 0 then
        match find_loop_by_start lps s.pc with
        | none => .crashed
        | some none => .returned 2 s
        | some (some l) => .running { s with pc := l.end_ + 1 }
      else .running { s with pc := s.pc + 1 }
  else if c = 93 then
    match peek s with
    | none => .crashed
    | some v =>
      if v ≠ 0 then
        match find_loop_by_end lps s.pc with
        | none => .crashed
        | some none => .returned 3 s
        | some (some l) => .running { s with pc := l.start + 1 }
      else .running { s with pc := s.pc + 1 }
  else .returned 4 s

/-- The entry of `simplebf` up to the head of the `for` loop, on the input stream. -/
def simplebf_init (input : List Nat) : Run :=
  match new_memory_block [] none none with
  | (_, none) =>
    .returned 1 { blocks := [], first_block := 0, current_block := 0, mem := 0,
                  pc := 0, mc := 0, input := input, output := [] }
  | (heap, some r) =>
    .running { blocks := heap, first_block := r, current_block := r, mem := r,
               pc := 0, mc := 0, input := input, output := [] }

/-- One more iteration, if the run is still in the loop. -/
def advance (code : List Nat) (lps : loops) : Run → Run
  | .running s => step code lps s
  | .returned st s => .returned st s
  | .crashed => .crashed

/-- The run of `simplebf` after `n` iterations of its loop. -/
def simplebf_steps (code : List Nat) (lps : loops) (input : List Nat) : Nat → Run
  | 0 => simplebf_init input
  | n + 1 => advance code lps (simplebf_steps code lps input n)

/-- The C function `simplebf` given `fuel` iterations: its exit status and the bytes
written to the standard output, or `none` if it has not returned by then. -/
def simplebf (fuel : Nat) (code : List Nat) (lps : loops) (input : List Nat) :
    Option (Nat × List Nat) :=
  match simplebf_steps code lps input fuel with
  | .returned st s => some (st, s.output)
  | _ => none

/-- The data pointer of the segmented tape: blocks before the current one, times
`MSIZE`, plus the offset in the current block. -/
def dp (s : State) : Nat := s.current_block * MSIZE + s.mc

/-- Cell `i` of the segmented tape: `block[i / MSIZE].m[i % MSIZE]`, and 0 when that
block is not allocated. -/
def cell (blocks : List memory_block) (i : Nat) : Nat :=
  match blocks[i / MSIZE]? with
  | some b => b.m (i % MSIZE)
  | none => 0

/-! ## Notions of the specification -/

/-- The instruction sequence held by the buffer: its bytes before the first `'\0'`. -/
def instrs (code : List Nat) : List Nat := code.takeWhile (fun c => decide (c ≠ 0))

/-- Number of `[` still open after scanning `seg` from left to right, starting with
`d` of them open; `none` when a `]` is met while none is open. -/
def depth_after : List Nat → Nat → Option Nat
  | [], d => some d
  | c :: rest, d =>
    if c = 91 then depth_after rest (d + 1)
    else if c = 93 then (if d = 0 then none else depth_after rest (d - 1))
    else depth_after rest d

/-- A sequence whose `[` and `]` are balanced. -/
def Balanced (seg : List Nat) : Prop := depth_after seg 0 = some 0

instance (seg : List Nat) : Decidable (Balanced seg) := by
  unfold Balanced; exact inferInstance

/-- The symbols strictly between positions `s` and `e`. -/
def between (code : List Nat) (s e : Nat) : List Nat :=
  (code.drop (s + 1)).take (e - s - 1)

/-- Position `e` is the true matching close of the `[` at `s`: it lies after `s`,
holds `]`, and the symbols strictly between the two are balanced. -/
def TrueMatch (code : List Nat) (s e : Nat) : Prop :=
  s < e ∧ code[s]? = some 91 ∧ code[e]? = some 93 ∧ Balanced (between code s e)

/-- The state of `simplebf` when it first reaches the head of its loop: one zeroed
block, `pc = 0`, `mc = 0`, nothing written. -/
def init_state (input : List Nat) : State :=
  { blocks := [{ m := fun _ => 0, next := none, previous := none }], first_block := 0,
    current_block := 0, mem := 0, pc := 0, mc := 0, input := input, output := [] }

/-- The loop index without any loop, as `register_loops` builds it for a program
without brackets. -/
def no_loops : loops :=
  { heap := [], first := none, current_in_list := none, current_in_stack := none }

/-- The run with the rest of the input stream replaced: what a run that reads no input
has in common with the same run on another stream. -/
def with_input (i : List Nat) : Run → Run
  | .running s => .running { s with input := i }
  | .returned st s => .returned st { s with input := i }
  | .crashed => .crashed

/-! ## Invariant of the scan of `register_loops` -/

/-- The loop index after scanning `pre`, seen as the list `S` of starts and the list
`E` of ends of its nodes, with the stack `stk` of the nodes still open (top first). -/
structure AInv (pre S E stk : List Nat) : Prop where
  len : S.length = E.length
  total : depth_after pre 0 = some stk.length
  sorted : stk.Pairwise (fun a b => b < a)
  opens_cover : ∀ p : Nat, pre[p]? = some 91 → ∃ k : Nat, S[k]? = some p
  start_open : ∀ k s : Nat, S[k]? = some s → pre[s]? = some 91
  start_mono : ∀ k1 k2 s1 s2 : Nat, k1 < k2 → S[k1]? = some s1 → S[k2]? = some s2 →
    s1 < s2
  pending : ∀ j k : Nat, stk[j]? = some k →
    ∃ s : Nat, S[k]? = some s ∧ E[k]? = some 0 ∧
      depth_after (pre.drop (s + 1)) 0 = some j
  closed : ∀ k s e : Nat, S[k]? = some s → E[k]? = some e → k ∉ stk →
    s < e ∧ pre[e]? = some 93 ∧ Balanced (between pre s e)
  closes_cover : ∀ e : Nat, pre[e]? = some 93 → ∃ k : Nat, k ∉ stk ∧ E[k]? = some e
  nc_closed : ∀ k1 k2 e1 s2 e2 : Nat, k1 < k2 → E[k1]? = some e1 → S[k2]? = some s2 →
    E[k2]? = some e2 → k1 ∉ stk → k2 ∉ stk → e1 < s2 ∨ e2 < e1
  nc_pending : ∀ k1 k2 e1 s2 : Nat, k1 < k2 → E[k1]? = some e1 → S[k2]? = some s2 →
    k1 ∉ stk → k2 ∈ stk → e1 < s2

/-- The stack threaded through the nodes by `previous_in_stack`: from the pointer
`top`, the addresses met are exactly `stk`, and the last node met points to `NULL`.
`P` lists the `previous_in_stack` field of every node of the heap. -/
def Chain (P : List (Option Nat)) : Option Nat → List Nat → Prop
  | top, [] => top = none
  | top, k :: ks => top = some k ∧ ∃ q, P[k]? = some q ∧ Chain P q ks

/-- The list threaded through the nodes by `next_in_list`: the nodes are linked in
the order of their addresses, from `first` to `current_in_list`. -/
structure Linked (r : loops) : Prop where
  first : r.first = if r.heap.length = 0 then none else some 0
  last : r.current_in_list = if r.heap.length = 0 then none else some (r.heap.length - 1)
  next : ∀ (k : Nat) (n : loop), r.heap[k]? = some n →
    n.next_in_list = if k + 1 < r.heap.length then some (k + 1) else none

/-- The state of `register_loops` after it has scanned `pre`, with `stk` the stack of
open loops. -/
structure Inv (pre : List Nat) (r : loops) (stk : List Nat) : Prop where
  linked : Linked r
  chain : Chain (r.heap.map loop.previous_in_stack) r.current_in_stack stk
  abs : AInv pre (r.heap.map loop.start) (r.heap.map loop.end_) stk

/-! ## The flat tape of the specification -/

/-- State of an engine over the tape of the specification: one unbounded array of
cells, all zero at the start, addressed by a data pointer that starts at 0. -/
structure FlatState where
  pc : Nat
  dp : Nat
  tape : Nat → Nat
  input : List Nat
  output : List Nat

/-- Where a run over the flat tape stands. -/
inductive FlatRun where
  | running : FlatState → FlatRun
  | returned : Nat → FlatState → FlatRun
  | crashed : FlatRun

/-- The store of `v` in cell `i` of a flat tape. -/
def tape_set (tape : Nat → Nat) (i v : Nat) : Nat → Nat :=
  fun j => if j = i then v else tape j

/-- One instruction of the reference engine: the dispatch of `simplebf` (same loop
index queries, same statuses), with the tape operations of the specification:
`>` adds one to the data pointer, `<` subtracts one and is fatal at position 0, and
the cell accessed is the cell at the data pointer. -/
def flat_step (code : List Nat) (lps : loops) (s : FlatState) : FlatRun :=
  let c := code.getD s.pc 0
  if c = 0 then .returned 0 s
  else if c = 62 then .running { s with dp := s.dp + 1, pc := s.pc + 1 }
  else if c = 60 then
    if s.dp = 0 then .returned 1 s
    else .running { s with dp := s.dp - 1, pc := s.pc + 1 }
  else if c = 43 then
    .running { s with tape := tape_set s.tape s.dp ((s.tape s.dp + 1) % 256),
                      pc := s.pc + 1 }
  else if c = 45 then
    .running { s with tape := tape_set s.tape s.dp (((s.tape s.dp : Int) - 1) % 256).toNat,
                      pc := s.pc + 1 }
  else if c = 46 then
    .running { s with output := s.output ++ [s.tape s.dp], pc := s.pc + 1 }
  else if c = 44 then
    .running { s with tape := tape_set s.tape s.dp (((getchar s.input).1) % 256).toNat,
                      input := (getchar s.input).2, pc := s.pc + 1 }
  else if c = 91 then
    if s.tape s.dp = 0 then
      match find_loop_by_start lps s.pc with
      | none => .crashed
      | some none => .returned 2 s
      | some (some l) => .running { s with pc := l.end_ + 1 }
    else .running { s with pc := s.pc + 1 }
  else if c = 93 then
    if s.tape s.dp ≠ 0 then
      match find_loop_by_end lps s.pc with
      | none => .crashed
      | some none => .returned 3 s
      | some (some l) => .running { s with pc := l.start + 1 }
    else .running { s with pc := s.pc + 1 }
  else .returned 4 s

/-- Start of the reference engine: `pc = 0`, `dp = 0`, every cell zero. -/
def flat_init (input : List Nat) : FlatRun :=
  .running { pc := 0, dp := 0, tape := fun _ => 0, input := input, output := [] }

/-- One more instruction of the reference engine, if it is still running. -/
def flat_advance (code : List Nat) (lps : loops) : FlatRun → FlatRun
  | .running s => flat_step code lps s
  | .returned st s => .returned st s
  | .crashed => .crashed

/-- The reference engine after `n` instructions. -/
def flat_steps (code : List Nat) (lps : loops) (input : List Nat) : Nat → FlatRun
  | 0 => flat_init input
  | n + 1 => flat_advance code lps (flat_steps code lps input n)

/-- The reference engine given `fuel` instructions: exit status and output. -/
def flat_simplebf (fuel : Nat) (code : List Nat) (lps : loops) (input : List Nat) :
    Option (Nat × List Nat) :=
  match flat_steps code lps input fuel with
  | .returned st s => some (st, s.output)
  | _ => none

/-- The flat state a state of `simplebf` stands for. -/
def abs_state (s : State) : FlatState :=
  { pc := s.pc, dp := dp s, tape := cell s.blocks, input := s.input, output := s.output }

/-- The flat run a run of `simplebf` stands for. -/
def abs_run : Run → FlatRun
  | .running s => .running (abs_state s)
  | .returned st s => .returned st (abs_state s)
  | .crashed => .crashed

/-- Shape of the tape of `simplebf` at the head of its loop: the blocks are linked
in both directions in the order of their addresses, the current block exists, `mem`
is its array, and `mc` is an index of that array. -/
structure TapeOK (s : State) : Prop where
  first : s.first_block = 0
  cur : s.current_block < s.blocks.length
  mem : s.mem = s.current_block
  mc : s.mc < MSIZE
  prev : ∀ (k : Nat) (b : memory_block), s.blocks[k]? = some b →
    b.previous = if k = 0 then none else some (k - 1)
  next : ∀ (k : Nat) (b : memory_block), s.blocks[k]? = some b →
    b.next = if k + 1 < s.blocks.length then some (k + 1) else none

/-- The shape holds in the state a run is in, if it is in one. -/
def RunOK : Run → Prop
  | .running s => TapeOK s
  | .returned _ s => TapeOK s
  | .crashed => True

/-! ## Loading the program -/

/-- The array `id` of `walk_fd`: the eight instruction symbols `><+-.,[]`. -/
def walk_fd_id : List Nat := [62, 60, 43, 45, 46, 44, 91, 93]

/-- The loop `for (i = 0; i < 8; i++)` of `walk_fd` on the byte `c`, the first argument
being `id` from index `i` on: the bytes it stores through `p` (`c` once, at the first
`id[i] == c`, or nothing). A byte above 127 equals no `id[i]`, whether `char` is signed
or not. -/
def match_id : List Nat → Nat → List Nat
  | [], _ => []
  | x :: rest, c => if x = c then [c] else match_id rest c

/-- The loop `for (j = 0; j < sread; j++)` of `walk_fd` over the bytes read into `buf`:
the bytes it stores through `p`. -/
def walk_buf : List Nat → List Nat
  | [] => []
  | c :: rest => match_id walk_fd_id c ++ walk_buf rest

/-- The call `read(fd, buf, count)` on a regular file of which `file` is still unread:
the bytes put in `buf` and what is left unread. Reads are assumed not to fail. -/
def read (file : List Nat) (count : Nat) : List Nat × List Nat :=
  (file.take count, file.drop count)

/-- The `do ... while (sread == 1024)` loop of `walk_fd`, with what it has stored in
`array` so far; `none` when the loop has not ended within `fuel` rounds. -/
def walk_fd_loop : Nat → List Nat → List Nat → Option (List Nat)
  | 0, _, _ => none
  | fuel + 1, file, array =>
    match read file 1024 with
    | (buf, rest) =>
      if buf.length = 1024 then walk_fd_loop fuel rest (array ++ walk_buf buf)
      else some (array ++ walk_buf buf)

/-- The C function `walk_fd` on a file with the bytes `file`: the instruction sequence
it writes to `array`. A file of `n` bytes is read in `n / 1024 + 1` rounds. -/
def walk_fd (file : List Nat) : Option (List Nat) :=
  walk_fd_loop (file.length / 1024 + 1) file []

/-- The symbol belongs to the alphabet `><+-.,[]`. -/
def is_instr (c : Nat) : Bool := decide (c ∈ walk_fd_id)

/-- The C function `fill_program_array` on a file with the bytes `file`: the memory
from the address it returns on. `memory` is what that memory holds when `malloc` hands
out the block of `st_size` bytes (the block, not initialised, and what lies after it);
`walk_fd` overwrites its first bytes with the instructions and nothing stores a
terminating NUL after them. Opening and reading the file are assumed not to fail. -/
def fill_program_array (file memory : List Nat) : Option (List Nat) :=
  match walk_fd file with
  | some stored => some (stored ++ memory.drop stored.length)
  | none => none

/-! ## Observations on a run -/

/-- The state a run is in (at the head of the loop, or at the return). -/
def run_state : Run → Option State
  | .running s => some s
  | .returned _ s => some s
  | .crashed => none

/-- The status `simplebf` has returned, if it has. -/
def run_status : Run → Option Nat
  | .returned st _ => some st
  | _ => none

/-- The program counter of a run. -/
def run_pc (x : Run) : Option Nat := (run_state x).map (fun s => s.pc)

/-- The bytes a run has written. -/
def run_output (x : Run) : Option (List Nat) := (run_state x).map (fun s => s.output)

/-- Cell `i` of the tape of a run. -/
def run_cell (x : Run) (i : Nat) : Option Nat := (run_state x).map (fun s => cell s.blocks i)

/-- The data pointer of a run (0 when the run has no state). -/
def run_dp (x : Run) : Nat :=
  match run_state x with
  | some s => dp s
  | none => 0

/-- The largest data pointer position reached in the first `n` steps of a run. -/
def max_dp (code : List Nat) (lps : loops) (input : List Nat) : Nat → Nat
  | 0 => run_dp (simplebf_steps code lps input 0)
  | n + 1 => max (max_dp code lps input n) (run_dp (simplebf_steps code lps input (n + 1)))

/-! ## Lists and bracket depth -/

theorem depth_after_append (a b : List Nat) (d : Nat) :
    depth_after (a ++ b) d = (depth_after a d).bind (depth_after b) := by
  induction a generalizing d with
  | nil => simp [depth_after]
  | cons c a ih =>
    simp only [List.cons_append, depth_after]
    split
    · exact ih _
    · split
      · split
        · rfl
        · exact ih _
      · exact ih _

theorem getElem?_snoc (l : List Nat) (c : Nat) (p x : Nat) :
    (l ++ [c])[p]? = some x ↔ l[p]? = some x ∨ (p = l.length ∧ x = c) := by
  rcases Nat.lt_trichotomy p l.length with h | h | h
  · rw [List.getElem?_append_left h]
    constructor
    · intro h1; exact Or.inl h1
    · rintro (h1 | ⟨h1, _⟩)
      · exact h1
      · omega
  · subst h
    simp [eq_comm]
  · rw [List.getElem?_eq_none (by simp; omega), List.getElem?_eq_none (by omega)]
    simp; omega

theorem lt_of_getElem? {α} {l : List α} {p : Nat} {x : α} (h : l[p]? = some x) : p < l.length := by
  by_contra hc
  rw [List.getElem?_eq_none (by omega)] at h
  cases h

theorem drop_snoc (l : List Nat) (c s : Nat) (h : s ≤ l.length) :
    (l ++ [c]).drop s = l.drop s ++ [c] := by
  rw [List.drop_append_of_le_length h]

theorem between_snoc (l : List Nat) (c s e : Nat) (h : e < l.length) :
    between (l ++ [c]) s e = between l s e := by
  unfold between
  by_cases hs : s + 1 ≤ l.length
  · rw [drop_snoc _ _ _ hs, List.take_append_of_le_length (by simp; omega)]
  · have h0 : e - s - 1 = 0 := by omega
    simp [h0]

theorem between_last (l : List Nat) (c s : Nat) (h : s < l.length) :
    between (l ++ [c]) s l.length = l.drop (s + 1) := by
  unfold between
  rw [drop_snoc _ _ _ (by omega), List.take_append_of_le_length (by simp; omega)]
  apply List.take_of_length_le
  simp; omega

/-! ## The scan keeps its invariant -/

theorem ainv_nil : AInv [] [] [] [] where
  len := rfl
  total := rfl
  sorted := List.Pairwise.nil
  opens_cover := by simp
  start_open := by simp
  start_mono := by simp
  pending := by simp
  closed := by simp
  closes_cover := by simp
  nc_closed := by simp
  nc_pending := by simp

theorem ainv_other {pre S E stk : List Nat} (h : AInv pre S E stk) (c : Nat)
    (h1 : c ≠ 91) (h2 : c ≠ 93) : AInv (pre ++ [c]) S E stk where
  len := h.len
  total := by simp [depth_after_append, h.total, depth_after, h1, h2]
  sorted := h.sorted
  opens_cover := by
    intro p hp
    rcases (getElem?_snoc _ _ _ _).1 hp with hp | ⟨_, hp⟩
    · exact h.opens_cover p hp
    · exact absurd hp.symm h1
  start_open := fun k s hk => (getElem?_snoc _ _ _ _).2 (Or.inl (h.start_open k s hk))
  start_mono := h.start_mono
  pending := by
    intro j k hj
    obtain ⟨s, hs, he, hd⟩ := h.pending j k hj
    have hlt := lt_of_getElem? (h.start_open k s hs)
    refine ⟨s, hs, he, ?_⟩
    rw [drop_snoc _ _ _ (by omega), depth_after_append, hd]
    simp [depth_after, h1, h2]
  closed := by
    intro k s e hs he hk
    obtain ⟨hse, hc, hb⟩ := h.closed k s e hs he hk
    refine ⟨hse, (getElem?_snoc _ _ _ _).2 (Or.inl hc), ?_⟩
    rw [between_snoc _ _ _ _ (lt_of_getElem? hc)]
    exact hb
  closes_cover := by
    intro e he
    rcases (getElem?_snoc _ _ _ _).1 he with he | ⟨_, he⟩
    · exact h.closes_cover e he
    · exact absurd he.symm h2
  nc_closed := h.nc_closed
  nc_pending := h.nc_pending

theorem AInv.stk_lt {pre S E stk : List Nat} (h : AInv pre S E stk) {k : Nat}
    (hk : k ∈ stk) : k < S.length := by
  obtain ⟨j, hj⟩ := List.getElem?_of_mem hk
  obtain ⟨s, hs, _, _⟩ := h.pending j k hj
  exact lt_of_getElem? hs

theorem snoc_old {l : List Nat} {c k x : Nat} (h : (l ++ [c])[k]? = some x)
    (hk : k ≠ l.length) : l[k]? = some x := by
  rcases (getElem?_snoc _ _ _ _).1 h with h | ⟨h, _⟩
  · exact h
  · exact absurd h hk

theorem ainv_push {pre S E stk : List Nat} (h : AInv pre S E stk) :
    AInv (pre ++ [91]) (S ++ [pre.length]) (E ++ [0]) (S.length :: stk) where
  len := by simp [h.len]
  total := by simp [depth_after_append, h.total, depth_after]
  sorted := List.pairwise_cons.2 ⟨fun k hk => h.stk_lt hk, h.sorted⟩
  opens_cover := by
    intro p hp
    rcases (getElem?_snoc _ _ _ _).1 hp with hp | ⟨hp, _⟩
    · obtain ⟨k, hk⟩ := h.opens_cover p hp
      exact ⟨k, (getElem?_snoc _ _ _ _).2 (Or.inl hk)⟩
    · exact ⟨S.length, (getElem?_snoc _ _ _ _).2 (Or.inr ⟨rfl, hp⟩)⟩
  start_open := by
    intro k s hk
    rcases (getElem?_snoc _ _ _ _).1 hk with hk | ⟨_, hk⟩
    · exact (getElem?_snoc _ _ _ _).2 (Or.inl (h.start_open k s hk))
    · exact (getElem?_snoc _ _ _ _).2 (Or.inr ⟨hk, rfl⟩)
  start_mono := by
    intro k1 k2 s1 s2 hlt h1 h2
    rcases (getElem?_snoc _ _ _ _).1 h1 with h1 | ⟨h1, _⟩
    · rcases (getElem?_snoc _ _ _ _).1 h2 with h2 | ⟨_, h2⟩
      · exact h.start_mono k1 k2 s1 s2 hlt h1 h2
      · have := lt_of_getElem? (h.start_open k1 s1 h1)
        omega
    · rcases (getElem?_snoc _ _ _ _).1 h2 with h2 | ⟨h2, _⟩
      · have := lt_of_getElem? h2
        omega
      · omega
  pending := by
    intro j k hj
    cases j with
    | zero =>
      simp only [List.getElem?_cons_zero, Option.some.injEq] at hj
      subst hj
      refine ⟨pre.length, (getElem?_snoc _ _ _ _).2 (Or.inr ⟨rfl, rfl⟩),
        (getElem?_snoc _ _ _ _).2 (Or.inr ⟨h.len, rfl⟩), ?_⟩
      simp [depth_after]
    | succ j =>
      simp only [List.getElem?_cons_succ] at hj
      obtain ⟨s, hs, he, hd⟩ := h.pending j k hj
      have hlt := lt_of_getElem? (h.start_open k s hs)
      refine ⟨s, (getElem?_snoc _ _ _ _).2 (Or.inl hs),
        (getElem?_snoc _ _ _ _).2 (Or.inl he), ?_⟩
      rw [drop_snoc _ _ _ (by omega), depth_after_append, hd]
      simp [depth_after]
  closed := by
    intro k s e hs he hk
    simp only [List.mem_cons, not_or] at hk
    have hs1 := snoc_old hs hk.1
    have he1 := snoc_old he (by rw [← h.len]; exact hk.1)
    obtain ⟨hse, hc, hb⟩ := h.closed k s e hs1 he1 hk.2
    refine ⟨hse, (getElem?_snoc _ _ _ _).2 (Or.inl hc), ?_⟩
    rw [between_snoc _ _ _ _ (lt_of_getElem? hc)]
    exact hb
  closes_cover := by
    intro e he
    have he1 := snoc_old he (fun hc => by
      rw [hc] at he; simp at he)
    obtain ⟨k, hk, hke⟩ := h.closes_cover e he1
    have hlt := lt_of_getElem? hke
    refine ⟨k, ?_, (getElem?_snoc _ _ _ _).2 (Or.inl hke)⟩
    simp only [List.mem_cons, not_or]
    exact ⟨by rw [h.len]; omega, hk⟩
  nc_closed := by
    intro k1 k2 e1 s2 e2 hlt h1 h2 h3 hk1 hk2
    simp only [List.mem_cons, not_or] at hk1 hk2
    exact h.nc_closed k1 k2 e1 s2 e2 hlt (snoc_old h1 (by rw [← h.len]; exact hk1.1))
      (snoc_old h2 hk2.1) (snoc_old h3 (by rw [← h.len]; exact hk2.1)) hk1.2 hk2.2
  nc_pending := by
    intro k1 k2 e1 s2 hlt h1 h2 hk1 hk2
    simp only [List.mem_cons, not_or] at hk1
    have h1o := snoc_old h1 (by rw [← h.len]; exact hk1.1)
    rcases List.mem_cons.1 hk2 with hk2 | hk2
    · subst hk2
      rcases (getElem?_snoc _ _ _ _).1 h2 with h2 | ⟨_, h2⟩
      · exact absurd (lt_of_getElem? h2) (by omega)
      · have hk1lt : k1 < S.length := by rw [h.len]; exact lt_of_getElem? h1o
        obtain ⟨s1, hs1⟩ : ∃ s1, S[k1]? = some s1 :=
          ⟨S[k1], List.getElem?_eq_getElem hk1lt⟩
        have := lt_of_getElem? (h.closed k1 s1 e1 hs1 h1o hk1.2).2.1
        omega
    · have hk2lt := h.stk_lt hk2
      exact h.nc_pending k1 k2 e1 s2 hlt h1o (snoc_old h2 (by omega)) hk1.2 hk2

theorem ainv_pop {pre S E ks : List Nat} {k : Nat} (h : AInv pre S E (k :: ks)) :
    AInv (pre ++ [93]) S (E.set k pre.length) ks := by
  have hsort := List.pairwise_cons.1 h.sorted
  have hkks : k ∉ ks := fun hc => Nat.lt_irrefl _ (hsort.1 k hc)
  obtain ⟨s0, hs0, he0, hd0⟩ := h.pending 0 k (by simp)
  have hkE : k < E.length := lt_of_getElem? he0
  have hs0lt := lt_of_getElem? (h.start_open k s0 hs0)
  have hset : ∀ i, i ≠ k → (E.set k pre.length)[i]? = E[i]? := fun i hi =>
    List.getElem?_set_ne (Ne.symm hi)
  have hsetk : (E.set k pre.length)[k]? = some pre.length := by
    rw [List.getElem?_set_self hkE]
  have hnot : ∀ i, i ≠ k → i ∉ ks → i ∉ k :: ks := by
    intro i hi hn hc
    rcases List.mem_cons.1 hc with hc | hc
    · exact hi hc
    · exact hn hc
  exact {
    len := by simp [h.len]
    total := by simp [depth_after_append, h.total, depth_after]
    sorted := hsort.2
    opens_cover := by
      intro p hp
      exact h.opens_cover p (snoc_old hp (fun hc => by rw [hc] at hp; simp at hp))
    start_open := fun i s hi => (getElem?_snoc _ _ _ _).2 (Or.inl (h.start_open i s hi))
    start_mono := h.start_mono
    pending := by
      intro j i hj
      obtain ⟨s, hs, he, hd⟩ := h.pending (j + 1) i (by simpa using hj)
      have hik : i ≠ k := fun hc => hkks (hc ▸ List.getElem?_mem hj)
      have hlt := lt_of_getElem? (h.start_open i s hs)
      refine ⟨s, hs, by rw [hset i hik]; exact he, ?_⟩
      rw [drop_snoc _ _ _ (by omega), depth_after_append, hd]
      simp [depth_after]
    closed := by
      intro i s e hs he hi
      by_cases hik : i = k
      · subst hik
        rw [hsetk] at he
        rw [hs0] at hs
        cases hs; cases he
        refine ⟨hs0lt, (getElem?_snoc _ _ _ _).2 (Or.inr ⟨rfl, rfl⟩), ?_⟩
        rw [between_last _ _ _ hs0lt]
        exact hd0
      · rw [hset i hik] at he
        obtain ⟨hse, hc, hb⟩ := h.closed i s e hs he (hnot i hik hi)
        refine ⟨hse, (getElem?_snoc _ _ _ _).2 (Or.inl hc), ?_⟩
        rw [between_snoc _ _ _ _ (lt_of_getElem? hc)]
        exact hb
    closes_cover := by
      intro e he
      rcases (getElem?_snoc _ _ _ _).1 he with he | ⟨he, _⟩
      · obtain ⟨i, hi, hie⟩ := h.closes_cover e he
        have hik : i ≠ k := fun hc => hi (hc ▸ List.mem_cons_self _ _)
        exact ⟨i, fun hc => hi (List.mem_cons_of_mem _ hc), by rw [hset i hik]; exact hie⟩
      · exact ⟨k, hkks, by rw [he]; exact hsetk⟩
    nc_closed := by
      intro k1 k2 e1 s2 e2 hlt h1 h2 h3 hk1 hk2
      by_cases hk1k : k1 = k
      · subst hk1k
        have hk2k : k2 ≠ k1 := by omega
        rw [hsetk] at h1
        cases h1
        rw [hset k2 hk2k] at h3
        have := lt_of_getElem? (h.closed k2 s2 e2 h2 h3 (hnot k2 hk2k hk2)).2.1
        exact Or.inr this
      · rw [hset k1 hk1k] at h1
        by_cases hk2k : k2 = k
        · subst hk2k
          exact Or.inl (h.nc_pending k1 k2 e1 s2 hlt h1 h2 (hnot k1 hk1k hk1)
            (List.mem_cons_self _ _))
        · rw [hset k2 hk2k] at h3
          exact h.nc_closed k1 k2 e1 s2 e2 hlt h1 h2 h3 (hnot k1 hk1k hk1)
            (hnot k2 hk2k hk2)
    nc_pending := by
      intro k1 k2 e1 s2 hlt h1 h2 hk1 hk2
      have hk2lt := hsort.1 k2 hk2
      have hk1k : k1 ≠ k := by omega
      rw [hset k1 hk1k] at h1
      exact h.nc_pending k1 k2 e1 s2 hlt h1 h2 (hnot k1 hk1k hk1)
        (List.mem_cons_of_mem _ hk2) }

theorem chain_append {P : List (Option Nat)} (Q : List (Option Nat)) {top : Option Nat}
    {stk : List Nat} (h : Chain P top stk) : Chain (P ++ Q) top stk := by
  induction stk generalizing top with
  | nil => exact h
  | cons k ks ih =>
    obtain ⟨h1, q, h2, h3⟩ := h
    refine ⟨h1, q, ?_, ih h3⟩
    rw [List.getElem?_append_left (lt_of_getElem? h2)]
    exact h2

theorem set_next_in_list_length (heap : List loop) (p : Nat) (v : Option Nat) :
    (set_next_in_list heap p v).length = heap.length := by
  unfold set_next_in_list
  split <;> simp

theorem set_next_in_list_getElem? (heap : List loop) (p : Nat) (v : Option Nat) (k : Nat) :
    (set_next_in_list heap p v)[k]? =
      (heap[k]?).map (fun n => if k = p then { n with next_in_list := v } else n) := by
  unfold set_next_in_list
  split
  · rename_i n hn
    rw [List.getElem?_set]
    by_cases hk : p = k
    · subst hk
      simp [hn, lt_of_getElem? hn]
    · have hk2 : ¬ k = p := fun hc => hk hc.symm
      simp only [hk, hk2, if_false]
      cases heap[k]? <;> rfl
  · rename_i hn
    by_cases hk : k = p
    · subst hk
      rw [hn]
      rfl
    · simp only [hk, if_false]
      cases heap[k]? <;> rfl

theorem set_next_in_list_map (heap : List loop) (p : Nat) (v : Option Nat) {β : Type}
    (f : loop → β) (hf : ∀ n : loop, f { n with next_in_list := v } = f n) :
    (set_next_in_list heap p v).map f = heap.map f := by
  apply List.ext_getElem?
  intro k
  rw [List.getElem?_map, List.getElem?_map, set_next_in_list_getElem?]
  cases heap[k]? with
  | none => rfl
  | some n =>
    simp only [Option.map_some']
    split
    · rw [hf]
    · rfl

theorem push_loop_heap (r : loops) (i : Nat) :
    (push_loop r i).1.heap.map loop.start = r.heap.map loop.start ++ [i] ∧
    (push_loop r i).1.heap.map loop.end_ = r.heap.map loop.end_ ++ [0] ∧
    (push_loop r i).1.heap.map loop.previous_in_stack =
      r.heap.map loop.previous_in_stack ++ [r.current_in_stack] ∧
    (push_loop r i).1.current_in_stack = some r.heap.length ∧
    (push_loop r i).2 = 0 := by
  unfold push_loop
  cases r.current_in_list with
  | none => simp
  | some c =>
    simp only
    rw [set_next_in_list_map _ _ _ _ (fun _ => rfl), set_next_in_list_map _ _ _ _ (fun _ => rfl),
      set_next_in_list_map _ _ _ _ (fun _ => rfl)]
    simp

theorem push_loop_linked (r : loops) (i : Nat) (h : Linked r) :
    Linked (push_loop r i).1 := by
  have hfirst := h.first
  have hlast := h.last
  unfold push_loop
  by_cases hlen : r.heap.length = 0
  · rw [if_pos hlen] at hlast
    rw [if_pos hlen] at hfirst
    rw [hlast]
    have hnil : r.heap = [] := List.length_eq_zero.1 hlen
    constructor
    · simp [hlen]
    · simp [hlen]
    · intro k n hk
      simp only [hnil, List.nil_append, List.length_nil] at hk ⊢
      cases k with
      | zero =>
        simp at hk
        subst hk
        simp
      | succ k => simp at hk
  · rw [if_neg hlen] at hlast
    rw [if_neg hlen] at hfirst
    rw [hlast]
    constructor
    · simp [set_next_in_list_length, hfirst]
    · simp [set_next_in_list_length]
    · intro k n hk
      simp only [set_next_in_list_length, List.length_append, List.length_singleton]
      simp only [set_next_in_list_getElem?] at hk
      by_cases hkl : k < r.heap.length
      · rw [List.getElem?_append_left hkl] at hk
        obtain ⟨n0, hn0, hn⟩ := Option.map_eq_some'.1 hk
        have hnx := h.next k n0 hn0
        subst hn
        by_cases hkc : k = r.heap.length - 1
        · simp only [hkc, if_true]
          rw [if_pos (by omega)]
          congr 1
          omega
        · simp only [hkc, if_false]
          rw [hnx, if_pos (by omega), if_pos (by omega)]
      · have hk' := lt_of_getElem? (Option.map_eq_some'.1 hk).choose_spec.1
        simp only [List.length_append, List.length_singleton] at hk'
        have hkeq : k = r.heap.length := by omega
        subst hkeq
        simp only [List.getElem?_concat_length, Option.map_some', Option.some.injEq] at hk
        rw [if_neg (by omega)] at hk
        subst hk
        simp

theorem inv_push {pre : List Nat} {r : loops} {stk : List Nat} (h : Inv pre r stk) :
    Inv (pre ++ [91]) (push_loop r pre.length).1 (r.heap.length :: stk) := by
  obtain ⟨h1, h2, h3, h4, _⟩ := push_loop_heap r pre.length
  constructor
  · exact push_loop_linked r _ h.linked
  · rw [h3, h4]
    refine ⟨rfl, r.current_in_stack, ?_, chain_append _ h.chain⟩
    simp
  · rw [h1, h2]
    have := ainv_push h.abs
    simpa using this

theorem inv_other {pre : List Nat} {r : loops} {stk : List Nat} (h : Inv pre r stk)
    (c : Nat) (h1 : c ≠ 91) (h2 : c ≠ 93) : Inv (pre ++ [c]) r stk :=
  ⟨h.linked, h.chain, ainv_other h.abs c h1 h2⟩

theorem inv_pop {pre : List Nat} {r : loops} {k : Nat} {ks : List Nat}
    (h : Inv pre r (k :: ks)) :
    ∃ r1, pop_loop r pre.length = .ok (r1, 0) ∧ Inv (pre ++ [93]) r1 ks := by
  obtain ⟨htop, q, hq, hch⟩ := h.chain
  rw [List.getElem?_map] at hq
  obtain ⟨n, hn, hnq⟩ := Option.map_eq_some'.1 hq
  refine ⟨{ r with heap := r.heap.set k { n with end_ := pre.length },
                   current_in_stack := n.previous_in_stack }, ?_, ?_⟩
  · unfold pop_loop
    rw [htop]
    simp only [hn]
  · have hkl := lt_of_getElem? hn
    have hself : ∀ {β : Type} (f : loop → β),
        (∀ m : loop, f { m with end_ := pre.length } = f m) →
        (r.heap.set k { n with end_ := pre.length }).map f = r.heap.map f := by
      intro β f hf
      rw [List.map_set, hf]
      apply List.ext_getElem?
      intro j
      rw [List.getElem?_set]
      split
      · rename_i hj
        subst hj
        have hget : r.heap[k] = n := by
          simpa [List.getElem?_eq_getElem hkl] using hn
        simp [hkl, hget]
      · rfl
    constructor
    · constructor
      · simpa using h.linked.first
      · simpa using h.linked.last
      · intro j m hj
        simp only [List.length_set]
        simp only [List.getElem?_set] at hj
        split at hj
        · rename_i hjk
          subst hjk
          simp only [hkl, if_true, Option.some.injEq] at hj
          subst hj
          exact h.linked.next k n hn
        · exact h.linked.next j m hj
    · simp only
      rw [hself loop.previous_in_stack (fun _ => rfl), hnq]
      exact hch
    · simp only
      rw [hself loop.start (fun _ => rfl), List.map_set]
      exact ainv_pop h.abs

theorem register_from_spec (rest : List Nat) : ∀ (pre : List Nat) (r : loops)
    (stk : List Nat), Inv pre r stk → (∀ c ∈ rest, c ≠ 0) →
    (∀ d, depth_after rest stk.length = some d →
      ∃ r1 stk1, register_from rest pre.length r = .ok r1 ∧
        Inv (pre ++ rest) r1 stk1 ∧ stk1.length = d) ∧
    (depth_after rest stk.length = none → register_from rest pre.length r = .segv) := by
  induction rest with
  | nil =>
    intro pre r stk h _
    refine ⟨fun d hd => ⟨r, stk, rfl, by simpa using h, ?_⟩, fun hd => ?_⟩
    · simpa [depth_after] using hd
    · simp [depth_after] at hd
  | cons c rest ih =>
    intro pre r stk h hnz
    have hc0 : c ≠ 0 := hnz c (List.mem_cons_self _ _)
    have hrest : ∀ x ∈ rest, x ≠ 0 := fun x hx => hnz x (List.mem_cons_of_mem _ hx)
    have happ : pre ++ c :: rest = (pre ++ [c]) ++ rest := by simp
    have hlen : (pre ++ [c]).length = pre.length + 1 := by simp
    by_cases h91 : c = 91
    · subst h91
      have hp := inv_push h
      have h0 := (push_loop_heap r pre.length).2.2.2.2
      have key := ih _ _ _ hp hrest
      rw [hlen] at key
      have hreg : register_from (91 :: rest) pre.length r =
          register_from rest (pre.length + 1) (push_loop r pre.length).1 := by
        rw [register_from]
        simp [h0]
      rw [hreg, happ]
      simpa [depth_after] using key
    · by_cases h93 : c = 93
      · subst h93
        cases stk with
        | nil =>
          refine ⟨fun d hd => ?_, fun _ => ?_⟩
          · simp [depth_after] at hd
          · have hnone : r.current_in_stack = none := h.chain
            rw [register_from]
            simp [pop_loop, hnone]
        | cons k ks =>
          obtain ⟨r1, hpop, hinv⟩ := inv_pop h
          have key := ih _ _ _ hinv hrest
          rw [hlen] at key
          have hreg : register_from (93 :: rest) pre.length r =
              register_from rest (pre.length + 1) r1 := by
            rw [register_from]
            simp [hpop]
          rw [hreg, happ]
          simpa [depth_after] using key
      · have key := ih _ _ _ (inv_other h c h91 h93) hrest
        rw [hlen] at key
        have hreg : register_from (c :: rest) pre.length r =
            register_from rest (pre.length + 1) r := by
          rw [register_from]
          simp [hc0, h91, h93]
        rw [hreg, happ]
        simpa [depth_after, h91, h93] using key

theorem register_from_instrs (code : List Nat) : ∀ (i : Nat) (r : loops),
    register_from code i r = register_from (instrs code) i r := by
  induction code with
  | nil => intro i r; rfl
  | cons c rest ih =>
    intro i r
    by_cases hc : c = 0
    · subst hc
      simp [instrs, register_from]
    · have hi : instrs (c :: rest) = c :: instrs rest := by
        simp [instrs, List.takeWhile_cons, hc]
      rw [hi, register_from, register_from]
      simp only [hc, if_false]
      split
      · rw [ih]
      · split
        · split
          · rw [ih]
          · rfl
          · rfl
        · rw [ih]

theorem instrs_ne_zero (code : List Nat) : ∀ c ∈ instrs code, c ≠ 0 := by
  intro c hc
  have := List.mem_takeWhile_imp hc
  simpa using this

theorem inv_init : Inv []
    { heap := [], first := none, current_in_list := none, current_in_stack := none } [] :=
  ⟨⟨rfl, rfl, by simp⟩, rfl, ainv_nil⟩

/-- The scan of `register_loops`: when no `]` meets an empty stack it returns an index
that satisfies the invariant on the whole instruction sequence, with as many loops
left on its stack as `[` stay open. -/
theorem register_loops_inv (code : List Nat) (d : Nat)
    (hd : depth_after (instrs code) 0 = some d) :
    ∃ r stk, register_loops code = .ok r ∧ Inv (instrs code) r stk ∧ stk.length = d := by
  have := (register_from_spec (instrs code) [] _ [] inv_init (instrs_ne_zero code)).1 d hd
  simpa [register_loops, register_from_instrs code] using this

/-- The scan of `register_loops` when a `]` meets an empty stack. -/
theorem register_loops_underflow (code : List Nat)
    (hd : depth_after (instrs code) 0 = none) : register_loops code = .segv := by
  have := (register_from_spec (instrs code) [] _ [] inv_init (instrs_ne_zero code)).2 hd
  simpa [register_loops, register_from_instrs code] using this

/-! ## Lookups in the index -/

theorem walk_by_start_drop (r : loops) (h : Linked r) (p : Nat) : ∀ (fuel k : Nat),
    r.heap.length ≤ k + fuel →
    walk_by_start r.heap p fuel (if k < r.heap.length then some k else none) =
      some ((r.heap.drop k).find? (fun n => decide (p = n.start))) := by
  intro fuel
  induction fuel with
  | zero =>
    intro k hk
    rw [if_neg (by omega), List.drop_of_length_le (by omega)]
    rfl
  | succ fuel ih =>
    intro k hk
    by_cases hlt : k < r.heap.length
    · rw [if_pos hlt, List.drop_eq_getElem_cons hlt, List.find?_cons]
      have hn := List.getElem?_eq_getElem hlt
      rw [walk_by_start]
      simp only [hn]
      by_cases hp : p = r.heap[k].start
      · simp [hp]
      · rw [if_neg hp, h.next k _ hn, ih (k + 1) (by omega)]
        simp [hp]
    · rw [if_neg hlt, List.drop_of_length_le (by omega)]
      rfl

theorem walk_by_end_drop (r : loops) (h : Linked r) (p : Nat) : ∀ (fuel k : Nat),
    r.heap.length ≤ k + fuel →
    walk_by_end r.heap p fuel (if k < r.heap.length then some k else none) =
      some ((r.heap.drop k).find? (fun n => decide (p = n.end_))) := by
  intro fuel
  induction fuel with
  | zero =>
    intro k hk
    rw [if_neg (by omega), List.drop_of_length_le (by omega)]
    rfl
  | succ fuel ih =>
    intro k hk
    by_cases hlt : k < r.heap.length
    · rw [if_pos hlt, List.drop_eq_getElem_cons hlt, List.find?_cons]
      have hn := List.getElem?_eq_getElem hlt
      rw [walk_by_end]
      simp only [hn]
      by_cases hp : p = r.heap[k].end_
      · simp [hp]
      · rw [if_neg hp, h.next k _ hn, ih (k + 1) (by omega)]
        simp [hp]
    · rw [if_neg hlt, List.drop_of_length_le (by omega)]
      rfl

/-- On a well linked list `find_loop_by_start` returns the first node, in list order,
whose `start` is the position asked for. -/
theorem find_loop_by_start_eq (r : loops) (h : Linked r) (p : Nat) :
    find_loop_by_start r p = some (r.heap.find? (fun n => decide (p = n.start))) := by
  have := walk_by_start_drop r h p r.heap.length 0 (by omega)
  rw [List.drop_zero] at this
  rw [← this, find_loop_by_start, h.first]
  by_cases hl : r.heap.length = 0
  · simp [hl]
  · rw [if_neg hl, if_pos (by omega)]

/-- On a well linked list `find_loop_by_end` returns the first node, in list order,
whose `end` is the position asked for. -/
theorem find_loop_by_end_eq (r : loops) (h : Linked r) (p : Nat) :
    find_loop_by_end r p = some (r.heap.find? (fun n => decide (p = n.end_))) := by
  have := walk_by_end_drop r h p r.heap.length 0 (by omega)
  rw [List.drop_zero] at this
  rw [← this, find_loop_by_end, h.first]
  by_cases hl : r.heap.length = 0
  · simp [hl]
  · rw [if_neg hl, if_pos (by omega)]

theorem find?_of_unique {α : Type} (pred : α → Bool) : ∀ (l : List α) (k : Nat) (x : α),
    l[k]? = some x → pred x = true →
    (∀ j y, l[j]? = some y → pred y = true → j = k) → l.find? pred = some x := by
  intro l
  induction l with
  | nil => intro k x hk; simp at hk
  | cons a t ih =>
    intro k x hk hx huniq
    rw [List.find?_cons]
    cases hpa : pred a with
    | true =>
      have h0 := huniq 0 a (by simp) hpa
      subst h0
      simp at hk
      simp [hk]
    | false =>
      cases k with
      | zero =>
        simp at hk
        subst hk
        rw [hx] at hpa
        cases hpa
      | succ k =>
        simp only [List.getElem?_cons_succ] at hk
        exact ih k x hk hx (fun j y hj hy => by
          have := huniq (j + 1) y (by simpa using hj) hy
          omega)

theorem heap_fields {r : loops} {k : Nat} {n : loop} (h : r.heap[k]? = some n) :
    (r.heap.map loop.start)[k]? = some n.start ∧
    (r.heap.map loop.end_)[k]? = some n.end_ := by
  simp [h]

theorem heap_of_start {r : loops} {k s : Nat} (h : (r.heap.map loop.start)[k]? = some s) :
    ∃ n, r.heap[k]? = some n ∧ n.start = s := by
  rw [List.getElem?_map] at h
  exact Option.map_eq_some'.1 h

theorem heap_of_end {r : loops} {k e : Nat} (h : (r.heap.map loop.end_)[k]? = some e) :
    ∃ n, r.heap[k]? = some n ∧ n.end_ = e := by
  rw [List.getElem?_map] at h
  exact Option.map_eq_some'.1 h

/-- Every node of the index is found by `find_loop_by_start` at its `start`. -/
theorem find_start_of_inv {pre : List Nat} {r : loops} {stk : List Nat}
    (h : Inv pre r stk) {k : Nat} {n : loop} (hn : r.heap[k]? = some n) :
    find_loop_by_start r n.start = some (some n) := by
  rw [find_loop_by_start_eq r h.linked]
  congr 1
  apply find?_of_unique _ _ k n hn (by simp)
  intro j y hj hy
  have hy' : n.start = y.start := by simpa using hy
  rcases Nat.lt_trichotomy j k with hlt | heq | hgt
  · have := h.abs.start_mono j k y.start n.start hlt (heap_fields hj).1 (heap_fields hn).1
    omega
  · exact heq
  · have := h.abs.start_mono k j n.start y.start hgt (heap_fields hn).1 (heap_fields hj).1
    omega

theorem pending_end {pre : List Nat} {r : loops} {stk : List Nat}
    (h : Inv pre r stk) {k : Nat} {n : loop} (hn : r.heap[k]? = some n) (hk : k ∈ stk) :
    n.end_ = 0 := by
  obtain ⟨j, hj⟩ := List.getElem?_of_mem hk
  obtain ⟨s, _, he, _⟩ := h.abs.pending j k hj
  rw [(heap_fields hn).2] at he
  exact Option.some.inj he

/-- Every closed node of the index is found by `find_loop_by_end` at its `end`. -/
theorem find_end_of_inv {pre : List Nat} {r : loops} {stk : List Nat}
    (h : Inv pre r stk) {k : Nat} {n : loop} (hn : r.heap[k]? = some n) (hk : k ∉ stk) :
    find_loop_by_end r n.end_ = some (some n) := by
  rw [find_loop_by_end_eq r h.linked]
  congr 1
  apply find?_of_unique _ _ k n hn (by simp)
  intro j y hj hy
  have hy' : n.end_ = y.end_ := by simpa using hy
  have hcl := h.abs.closed k n.start n.end_ (heap_fields hn).1 (heap_fields hn).2 hk
  by_cases hjs : j ∈ stk
  · have := pending_end h hj hjs
    omega
  · have hcl2 := h.abs.closed j y.start y.end_ (heap_fields hj).1 (heap_fields hj).2 hjs
    rcases Nat.lt_trichotomy j k with hlt | heq | hgt
    · have := h.abs.nc_closed j k y.end_ n.start n.end_ hlt (heap_fields hj).2
        (heap_fields hn).1 (heap_fields hn).2 hjs hk
      omega
    · exact heq
    · have := h.abs.nc_closed k j n.end_ y.start y.end_ hgt (heap_fields hn).2
        (heap_fields hj).1 (heap_fields hj).2 hk hjs
      omega

theorem instrs_getD {code : List Nat} {p c : Nat} (h : (instrs code)[p]? = some c) :
    code.getD p 0 = c := by
  have hpre : instrs code <+: code := List.takeWhile_prefix _
  obtain ⟨t, ht⟩ := hpre
  have hlt := lt_of_getElem? h
  rw [List.getD_eq_getElem?_getD, ← ht, List.getElem?_append_left hlt, h]
  rfl

theorem truematch_unique {code : List Nat} {s e e' : Nat} (h : TrueMatch code s e)
    (h' : TrueMatch code s e') : e = e' := by
  have key : ∀ a b : Nat, TrueMatch code s a → TrueMatch code s b → ¬ a < b := by
    intro a b ha hb hlt
    obtain ⟨hsa, _, hca, hba⟩ := ha
    obtain ⟨_, _, _, hbb⟩ := hb
    unfold Balanced between at hba hbb
    have hsplit : b - s - 1 = (a - s - 1) + (b - a) := by omega
    have hda : ((code.drop (s + 1)).drop (a - s - 1)) =
        93 :: (code.drop (s + 1 + (a - s - 1) + 1)) := by
      rw [List.drop_drop]
      have hidx : s + 1 + (a - s - 1) = a := by omega
      rw [hidx, List.drop_eq_getElem_cons (lt_of_getElem? hca)]
      congr 1
      have := List.getElem?_eq_getElem (lt_of_getElem? hca)
      rw [hca] at this
      exact (Option.some.inj this).symm
    obtain ⟨m, hm⟩ : ∃ m, b - a = m + 1 := ⟨b - a - 1, by omega⟩
    rw [hsplit, List.take_add, depth_after_append, hba, hda, hm] at hbb
    simp [depth_after] at hbb
  rcases Nat.lt_trichotomy e e' with hlt | heq | hgt
  · exact absurd hlt (key e e' h h')
  · exact heq
  · exact absurd hgt (key e' e h' h)

/-! ## Claims on the loop index -/

theorem inv_open {pre : List Nat} {r : loops} (h : Inv pre r []) {p : Nat}
    (hp : pre[p]? = some 91) :
    ∃ (k : Nat) (n : loop), r.heap[k]? = some n ∧ n.start = p ∧ TrueMatch pre p n.end_ := by
  obtain ⟨k, hk⟩ := h.abs.opens_cover p hp
  obtain ⟨n, hn, hns⟩ := heap_of_start hk
  obtain ⟨h1, h2, h3⟩ := h.abs.closed k n.start n.end_ (heap_fields hn).1
    (heap_fields hn).2 (by simp)
  subst hns
  exact ⟨k, n, hn, rfl, h1, hp, h2, h3⟩

theorem inv_close {pre : List Nat} {r : loops} (h : Inv pre r []) {e : Nat}
    (he : pre[e]? = some 93) :
    ∃ (k : Nat) (n : loop), r.heap[k]? = some n ∧ n.end_ = e ∧ TrueMatch pre n.start e := by
  obtain ⟨k, _, hk⟩ := h.abs.closes_cover e he
  obtain ⟨n, hn, hne⟩ := heap_of_end hk
  obtain ⟨h1, h2, h3⟩ := h.abs.closed k n.start n.end_ (heap_fields hn).1
    (heap_fields hn).2 (by simp)
  subst hne
  exact ⟨k, n, hn, rfl, h1, h.abs.start_open k n.start (heap_fields hn).1, h2, h3⟩

theorem matchOf_open {code : List Nat} {r : loops} {p : Nat} {l : loop}
    (hc : code.getD p 0 = 91) (hf : find_loop_by_start r p = some (some l)) :
    matchOf code r p = some l.end_ := by
  unfold matchOf
  rw [if_pos hc, hf]

theorem matchOf_close {code : List Nat} {r : loops} {p : Nat} {l : loop}
    (hc : code.getD p 0 = 93) (hf : find_loop_by_end r p = some (some l)) :
    matchOf code r p = some l.start := by
  unfold matchOf
  rw [if_neg (by rw [hc]; decide), if_pos hc, hf]

/-- C1: for every instruction sequence whose brackets are balanced, `register_loops`
returns an index on which `matchOf` is an involution: at every position `p` of the
sequence that holds `[` or `]`, `matchOf p` is defined and `matchOf (matchOf p) = p`. -/
theorem matchOf_involution (code : List Nat) (hb : Balanced (instrs code)) :
    ∃ r, register_loops code = .ok r ∧
      ∀ p : Nat, ((instrs code)[p]? = some 91 ∨ (instrs code)[p]? = some 93) →
        ∃ q, matchOf code r p = some q ∧ matchOf code r q = some p := by
  obtain ⟨r, stk, hr, hinv, hstk⟩ := register_loops_inv code 0 hb
  have hnil : stk = [] := List.length_eq_zero.1 hstk
  subst hnil
  refine ⟨r, hr, ?_⟩
  intro p hp
  rcases hp with hp | hp
  · obtain ⟨k, n, hn, hns, _, _, hcl, _⟩ := inv_open hinv hp
    have hfs := find_start_of_inv hinv hn
    have hfe := find_end_of_inv hinv hn (by simp)
    rw [hns] at hfs
    refine ⟨n.end_, ?_, ?_⟩
    · exact matchOf_open (instrs_getD hp) hfs
    · rw [matchOf_close (instrs_getD hcl) hfe, hns]
  · obtain ⟨k, n, hn, hne, _, hop, _, _⟩ := inv_close hinv hp
    have hfs := find_start_of_inv hinv hn
    have hfe := find_end_of_inv hinv hn (by simp)
    rw [hne] at hfe
    refine ⟨n.start, ?_, ?_⟩
    · exact matchOf_close (instrs_getD hp) hfe
    · rw [matchOf_open (instrs_getD hop) hfs, hne]

/-- A balanced two-symbol program on which C1 is applied. -/
theorem matchOf_involution_witness :
    Balanced (instrs [91, 93]) ∧
    ∃ r, register_loops [91, 93] = .ok r ∧
      ∀ p : Nat, ((instrs [91, 93])[p]? = some 91 ∨ (instrs [91, 93])[p]? = some 93) →
        ∃ q, matchOf [91, 93] r p = some q ∧ matchOf [91, 93] r q = some p :=
  ⟨by decide, matchOf_involution [91, 93] (by decide)⟩

/-- C2: for every balanced instruction sequence, the loop that `register_loops`
records for a `[` at `s` ends at the true matching close of `s`, which is the only
position after `s` that holds `]` with balanced symbols in between; and every `]` at
`e` is the end of the loop recorded for its true matching `[`. -/
theorem register_loops_true_match (code : List Nat) (hb : Balanced (instrs code)) :
    ∃ r, register_loops code = .ok r ∧
      (∀ s : Nat, (instrs code)[s]? = some 91 →
        ∃ l, find_loop_by_start r s = some (some l) ∧ l.start = s ∧
          TrueMatch (instrs code) s l.end_ ∧
          ∀ e : Nat, TrueMatch (instrs code) s e → e = l.end_) ∧
      (∀ e : Nat, (instrs code)[e]? = some 93 →
        ∃ l, find_loop_by_end r e = some (some l) ∧ l.end_ = e ∧
          TrueMatch (instrs code) l.start e ∧
          find_loop_by_start r l.start = some (some l)) := by
  obtain ⟨r, stk, hr, hinv, hstk⟩ := register_loops_inv code 0 hb
  have hnil : stk = [] := List.length_eq_zero.1 hstk
  subst hnil
  refine ⟨r, hr, ?_, ?_⟩
  · intro s hs
    obtain ⟨k, n, hn, hns, htm⟩ := inv_open hinv hs
    have hfs := find_start_of_inv hinv hn
    rw [hns] at hfs
    exact ⟨n, hfs, hns, htm, fun e he => truematch_unique he htm⟩
  · intro e he
    obtain ⟨k, n, hn, hne, htm⟩ := inv_close hinv he
    have hfe := find_end_of_inv hinv hn (by simp)
    rw [hne] at hfe
    exact ⟨n, hfe, hne, htm, find_start_of_inv hinv hn⟩

/-- A nested balanced program on which C2 is applied. -/
theorem register_loops_true_match_witness :
    Balanced (instrs [91, 91, 93, 93]) ∧
    ∃ r, register_loops [91, 91, 93, 93] = .ok r ∧
      (∀ s : Nat, (instrs [91, 91, 93, 93])[s]? = some 91 →
        ∃ l, find_loop_by_start r s = some (some l) ∧ l.start = s ∧
          TrueMatch (instrs [91, 91, 93, 93]) s l.end_ ∧
          ∀ e : Nat, TrueMatch (instrs [91, 91, 93, 93]) s e → e = l.end_) ∧
      (∀ e : Nat, (instrs [91, 91, 93, 93])[e]? = some 93 →
        ∃ l, find_loop_by_end r e = some (some l) ∧ l.end_ = e ∧
          TrueMatch (instrs [91, 91, 93, 93]) l.start e ∧
          find_loop_by_start r l.start = some (some l)) :=
  ⟨by decide, register_loops_true_match [91, 91, 93, 93] (by decide)⟩

/-- C3: for every balanced instruction sequence the recorded loops satisfy the Loop
Index invariant: every `[` position is the start of exactly one loop, every loop ends
after its start, and two different loops are disjoint or one strictly contains the
other. -/
theorem register_loops_nesting (code : List Nat) (hb : Balanced (instrs code)) :
    ∃ r, register_loops code = .ok r ∧
      (∀ s : Nat, (instrs code)[s]? = some 91 →
        ∃! k : Nat, ∃ n, r.heap[k]? = some n ∧ n.start = s) ∧
      (∀ (k : Nat) (n : loop), r.heap[k]? = some n → n.start < n.end_) ∧
      (∀ (k1 k2 : Nat) (n1 n2 : loop), r.heap[k1]? = some n1 → r.heap[k2]? = some n2 →
        k1 ≠ k2 →
        (n1.end_ < n2.start ∨ n2.end_ < n1.start) ∨
        (n1.start < n2.start ∧ n2.end_ < n1.end_) ∨
        (n2.start < n1.start ∧ n1.end_ < n2.end_)) := by
  obtain ⟨r, stk, hr, hinv, hstk⟩ := register_loops_inv code 0 hb
  have hnil : stk = [] := List.length_eq_zero.1 hstk
  subst hnil
  have hclosed : ∀ (k : Nat) (n : loop), r.heap[k]? = some n → n.start < n.end_ :=
    fun k n hn => (hinv.abs.closed k n.start n.end_ (heap_fields hn).1
      (heap_fields hn).2 (by simp)).1
  have hpair : ∀ (k1 k2 : Nat) (n1 n2 : loop), r.heap[k1]? = some n1 →
      r.heap[k2]? = some n2 → k1 < k2 →
      n1.end_ < n2.start ∨ (n1.start < n2.start ∧ n2.end_ < n1.end_) := by
    intro k1 k2 n1 n2 h1 h2 hlt
    have hs := hinv.abs.start_mono k1 k2 _ _ hlt (heap_fields h1).1 (heap_fields h2).1
    rcases hinv.abs.nc_closed k1 k2 _ _ _ hlt (heap_fields h1).2 (heap_fields h2).1
      (heap_fields h2).2 (by simp) (by simp) with h | h
    · exact Or.inl h
    · exact Or.inr ⟨hs, h⟩
  refine ⟨r, hr, ?_, hclosed, ?_⟩
  · intro s hs
    obtain ⟨k, n, hn, hns, _⟩ := inv_open hinv hs
    refine ⟨k, ⟨n, hn, hns⟩, ?_⟩
    rintro j ⟨m, hm, hms⟩
    rcases Nat.lt_trichotomy j k with hlt | heq | hgt
    · have := hinv.abs.start_mono j k _ _ hlt (heap_fields hm).1 (heap_fields hn).1
      omega
    · exact heq
    · have := hinv.abs.start_mono k j _ _ hgt (heap_fields hn).1 (heap_fields hm).1
      omega
  · intro k1 k2 n1 n2 h1 h2 hne
    rcases Nat.lt_or_gt_of_ne hne with hlt | hgt
    · rcases hpair k1 k2 n1 n2 h1 h2 hlt with h | h
      · exact Or.inl (Or.inl h)
      · exact Or.inr (Or.inl h)
    · rcases hpair k2 k1 n2 n1 h2 h1 hgt with h | h
      · exact Or.inl (Or.inr h)
      · exact Or.inr (Or.inr h)

/-- A balanced program with two loops side by side on which C3 is applied. -/
theorem register_loops_nesting_witness :
    Balanced (instrs [91, 93, 91, 93]) ∧
    ∃ r, register_loops [91, 93, 91, 93] = .ok r ∧
      (∀ s : Nat, (instrs [91, 93, 91, 93])[s]? = some 91 →
        ∃! k : Nat, ∃ n, r.heap[k]? = some n ∧ n.start = s) ∧
      (∀ (k : Nat) (n : loop), r.heap[k]? = some n → n.start < n.end_) ∧
      (∀ (k1 k2 : Nat) (n1 n2 : loop), r.heap[k1]? = some n1 → r.heap[k2]? = some n2 →
        k1 ≠ k2 →
        (n1.end_ < n2.start ∨ n2.end_ < n1.start) ∨
        (n1.start < n2.start ∧ n2.end_ < n1.end_) ∨
        (n2.start < n1.start ∧ n1.end_ < n2.end_)) :=
  ⟨by decide, register_loops_nesting [91, 93, 91, 93] (by decide)⟩

/-- C4, as the code has it: when no `]` meets an empty stack and some `[` is still
open at the end of the scan, `register_loops` reports no error: it returns an index,
whose stack of open loops is not empty. -/
theorem register_loops_ignores_open (code : List Nat) (d : Nat)
    (hd : depth_after (instrs code) 0 = some (d + 1)) :
    ∃ r, register_loops code = .ok r ∧ r.current_in_stack ≠ none := by
  obtain ⟨r, stk, hr, hinv, hstk⟩ := register_loops_inv code (d + 1) hd
  refine ⟨r, hr, ?_⟩
  cases stk with
  | nil => simp at hstk
  | cons k ks =>
    have := hinv.chain.1
    rw [this]
    simp

/-- The program `[` on which the amended C4 is applied. -/
theorem register_loops_ignores_open_witness :
    depth_after (instrs [91]) 0 = some (0 + 1) ∧
    ∃ r, register_loops [91] = .ok r ∧ r.current_in_stack ≠ none :=
  ⟨by decide, register_loops_ignores_open [91] 0 (by decide)⟩

/-- C4 fails on the program `[`: its `[` is never closed, and `register_loops`
returns an index (with that loop's `end` left at 0), not the error result `NULL`. -/
theorem register_loops_open_counterexample :
    depth_after (instrs [91]) 0 = some 1 ∧
    register_loops [91] = .ok
      { heap := [{ start := 0, end_ := 0, next_in_list := none,
                   previous_in_stack := none }],
        first := some 0, current_in_list := some 0, current_in_stack := some 0 } ∧
    register_loops [91] ≠ .null := by
  decide

/-- C5 at the program `]`: the `]` meets an empty stack, `pop_loop` dereferences the
`NULL` pointer `current_in_stack`, and `register_loops` neither returns `NULL` nor an
index. -/
theorem register_loops_close_null_deref :
    depth_after (instrs [93]) 0 = none ∧
    pop_loop { heap := [], first := none, current_in_list := none,
               current_in_stack := none } 0 = .segv ∧
    register_loops [93] = .segv ∧ register_loops [93] ≠ .null := by
  decide

/-! ## The segmented tape and the flat tape -/

theorem dp_split (c m i : Nat) (hm : m < MSIZE) :
    (i / MSIZE = c ∧ i % MSIZE = m) ↔ i = c * MSIZE + m := by
  unfold MSIZE at *
  omega

theorem peek_eq {s : State} (h : TapeOK s) : peek s = some (cell s.blocks (dp s)) := by
  obtain ⟨b, hb⟩ : ∃ b, s.blocks[s.current_block]? = some b :=
    ⟨_, List.getElem?_eq_getElem h.cur⟩
  have hsplit := (dp_split s.current_block s.mc (dp s) h.mc).2 rfl
  unfold peek cell
  rw [h.mem, hsplit.1, hsplit.2, hb]
  simp [h.mc]

theorem cell_set (blocks : List memory_block) (c m v : Nat) (b : memory_block)
    (hb : blocks[c]? = some b) (hm : m < MSIZE) :
    cell (blocks.set c { b with m := fun j => if j = m then v else b.m j }) =
      tape_set (cell blocks) (c * MSIZE + m) v := by
  funext i
  simp only [cell, tape_set]
  rw [List.getElem?_set]
  by_cases hi : i = c * MSIZE + m
  · have hs := (dp_split c m i hm).2 hi
    rw [if_pos hi, if_pos hs.1.symm, if_pos (lt_of_getElem? hb)]
    simp [hs.2]
  · rw [if_neg hi]
    by_cases hc : c = i / MSIZE
    · have hmm : ¬ i % MSIZE = m := fun hmm => hi ((dp_split c m i hm).1 ⟨hc.symm, hmm⟩)
      rw [if_pos hc, if_pos (lt_of_getElem? hb), ← hc, hb]
      simp [hmm]
    · rw [if_neg hc]

theorem poke_eq {s : State} (h : TapeOK s) (v : Nat) :
    ∃ s1, poke s v = some s1 ∧ TapeOK s1 ∧ cell s1.blocks = tape_set (cell s.blocks) (dp s) v ∧
      s1.current_block = s.current_block ∧ s1.mc = s.mc ∧ s1.pc = s.pc ∧
      s1.input = s.input ∧ s1.output = s.output ∧ s1.mem = s.mem ∧
      s1.first_block = s.first_block := by
  obtain ⟨b, hb⟩ : ∃ b, s.blocks[s.current_block]? = some b :=
    ⟨_, List.getElem?_eq_getElem h.cur⟩
  let b2 : memory_block := { b with m := fun j => if j = s.mc then v else b.m j }
  refine ⟨{ s with blocks := s.blocks.set s.mem b2 }, ?_, ?_, ?_, rfl, rfl, rfl,
      rfl, rfl, rfl, rfl⟩
  · unfold poke
    rw [h.mem, hb]
    simp [h.mc]
  · have hfield : ∀ (k : Nat) (b1 : memory_block),
        (s.blocks.set s.mem { b with m := fun j => if j = s.mc then v else b.m j })[k]? =
          some b1 → ∃ b0, s.blocks[k]? = some b0 ∧ b1.previous = b0.previous ∧
            b1.next = b0.next := by
      intro k b1 hk
      rw [List.getElem?_set] at hk
      split at hk
      · rename_i hkk
        split at hk
        · cases hk
          exact ⟨b, by rw [← hkk, h.mem]; exact hb, rfl, rfl⟩
        · cases hk
      · exact ⟨b1, hk, rfl, rfl⟩
    constructor
    · exact h.first
    · simpa using h.cur
    · exact h.mem
    · exact h.mc
    · intro k b1 hk
      obtain ⟨b0, h0, h1, _⟩ := hfield k b1 hk
      rw [h1]
      exact h.prev k b0 h0
    · intro k b1 hk
      obtain ⟨b0, h0, _, h2⟩ := hfield k b1 hk
      rw [h2]
      simpa using h.next k b0 h0
  · simp only
    rw [h.mem]
    exact cell_set s.blocks s.current_block s.mc v b hb h.mc

theorem set_next_getElem? (heap : List memory_block) (p : Nat) (v : Option Nat) (k : Nat) :
    (set_next heap p v)[k]? =
      (heap[k]?).map (fun b => if k = p then { b with next := v } else b) := by
  unfold set_next
  split
  · rename_i n hn
    rw [List.getElem?_set]
    by_cases hk : p = k
    · subst hk
      simp [hn, lt_of_getElem? hn]
    · have hk2 : ¬ k = p := fun hc => hk hc.symm
      simp only [hk, hk2, if_false]
      cases heap[k]? <;> rfl
  · rename_i hn
    by_cases hk : k = p
    · subst hk
      rw [hn]
      rfl
    · simp only [hk, if_false]
      cases heap[k]? <;> rfl

theorem set_next_length (heap : List memory_block) (p : Nat) (v : Option Nat) :
    (set_next heap p v).length = heap.length := by
  unfold set_next
  split <;> simp

/-- The effect of `>` on a well shaped tape. -/
theorem step_right (code : List Nat) (lps : loops) {s : State} (h : TapeOK s)
    (hc : code.getD s.pc 0 = 62) :
    ∃ s1, step code lps s = .running s1 ∧ TapeOK s1 ∧ dp s1 = dp s + 1 ∧
      cell s1.blocks = cell s.blocks ∧ s1.pc = s.pc + 1 ∧ s1.input = s.input ∧
      s1.output = s.output := by
  obtain ⟨b, hb⟩ : ∃ b, s.blocks[s.current_block]? = some b :=
    ⟨_, List.getElem?_eq_getElem h.cur⟩
  have hnext := h.next _ b hb
  by_cases hm : s.mc + 1 = MSIZE
  · by_cases hlast : s.current_block + 1 < s.blocks.length
    · rw [if_pos hlast] at hnext
      refine ⟨{ s with current_block := s.current_block + 1, mc := 0,
                       mem := s.current_block + 1, pc := s.pc + 1 }, ?_, ?_, ?_, rfl, rfl,
        rfl, rfl⟩
      · unfold step
        simp only [hc]
        simp [hm, hb, hnext]
      · exact ⟨h.first, hlast, rfl, by dsimp only; unfold MSIZE; omega, h.prev, h.next⟩
      · simp only [dp]
        unfold MSIZE at *
        omega
    · rw [if_neg hlast] at hnext
      have hlen : s.blocks.length = s.current_block + 1 := by have := h.cur; omega
      refine ⟨{ s with blocks := (new_memory_block s.blocks (some s.current_block) none).1,
                       current_block := s.blocks.length, mc := 0,
                       mem := s.blocks.length, pc := s.pc + 1 }, ?_, ?_, ?_, ?_, rfl,
        rfl, rfl⟩
      · unfold step
        simp only [hc]
        simp [hm, hb, hnext, new_memory_block]
      · have hget : ∀ (k : Nat) (b1 : memory_block),
            (new_memory_block s.blocks (some s.current_block) none).1[k]? = some b1 →
            (k < s.blocks.length ∧ ∃ b0, s.blocks[k]? = some b0 ∧
              b1.previous = b0.previous ∧
              b1.next = (if k = s.current_block then some s.blocks.length else b0.next)) ∨
            (k = s.blocks.length ∧ b1.previous = some s.current_block ∧ b1.next = none) := by
          intro k b1 hk
          simp only [new_memory_block, set_next_getElem?] at hk
          obtain ⟨b0, hb0, hb1⟩ := Option.map_eq_some'.1 hk
          by_cases hkl : k < s.blocks.length
          · rw [List.getElem?_append_left hkl] at hb0
            refine Or.inl ⟨hkl, b0, hb0, ?_, ?_⟩
            · subst hb1; split <;> rfl
            · subst hb1; split <;> rfl
          · have hk' := lt_of_getElem? hb0
            simp only [List.length_append, List.length_singleton] at hk'
            have hkeq : k = s.blocks.length := by omega
            subst hkeq
            simp only [List.getElem?_concat_length, Option.some.injEq] at hb0
            subst hb0
            rw [if_neg (by omega)] at hb1
            subst hb1
            exact Or.inr ⟨rfl, rfl, rfl⟩
        have hlen2 : (new_memory_block s.blocks (some s.current_block) none).1.length =
            s.blocks.length + 1 := by
          simp [new_memory_block, set_next_length]
        refine ⟨h.first, by simp only [hlen2]; omega, rfl, by dsimp only; unfold MSIZE; omega, ?_, ?_⟩
        · intro k b1 hk
          rcases hget k b1 hk with ⟨_, b0, h0, h1, _⟩ | ⟨h0, h1, _⟩
          · rw [h1]; exact h.prev k b0 h0
          · rw [h1, if_neg (by omega)]
            congr 1
            omega
        · intro k b1 hk
          simp only [hlen2]
          rcases hget k b1 hk with ⟨hkl, b0, h0, _, h2⟩ | ⟨h0, _, h2⟩
          · rw [h2]
            by_cases hkc : k = s.current_block
            · rw [if_pos hkc, if_pos (by omega)]
              congr 1
              omega
            · rw [if_neg hkc, h.next k b0 h0, if_pos (by omega), if_pos (by omega)]
          · rw [h2, if_neg (by omega)]
      · simp only [dp]
        unfold MSIZE at *
        omega
      · funext i
        simp only [cell, new_memory_block, set_next_getElem?]
        by_cases hkl : i / MSIZE < s.blocks.length
        · rw [List.getElem?_append_left hkl]
          cases hq : s.blocks[i / MSIZE]? with
          | none => rfl
          | some b0 =>
            simp only [Option.map_some']
            split <;> rfl
        · rw [List.getElem?_eq_none (l := s.blocks) (by omega)]
          by_cases hkeq : i / MSIZE = s.blocks.length
          · rw [hkeq]
            simp only [List.getElem?_concat_length, Option.map_some']
            rw [if_neg (by omega)]
          · rw [List.getElem?_eq_none (by simp; omega)]
            rfl
  · refine ⟨{ s with mc := s.mc + 1, pc := s.pc + 1 }, ?_, ?_, ?_, rfl, rfl, rfl, rfl⟩
    · unfold step
      simp only [hc]
      simp [hm]
    · exact ⟨h.first, h.cur, h.mem, by have := h.mc; dsimp only; omega, h.prev, h.next⟩
    · simp only [dp]
      omega

/-- The effect of `<` on a well shaped tape. -/
theorem step_left (code : List Nat) (lps : loops) {s : State} (h : TapeOK s)
    (hc : code.getD s.pc 0 = 60) :
    (dp s = 0 ∧ step code lps s = .returned 1 s) ∨
    (dp s ≠ 0 ∧ ∃ s1, step code lps s = .running s1 ∧ TapeOK s1 ∧ dp s1 = dp s - 1 ∧
      cell s1.blocks = cell s.blocks ∧ s1.pc = s.pc + 1 ∧ s1.input = s.input ∧
      s1.output = s.output) := by
  obtain ⟨b, hb⟩ : ∃ b, s.blocks[s.current_block]? = some b :=
    ⟨_, List.getElem?_eq_getElem h.cur⟩
  have hprev := h.prev _ b hb
  by_cases hm : s.mc = 0
  · by_cases hfirst : s.current_block = 0
    · rw [if_pos hfirst] at hprev
      refine Or.inl ⟨by simp [dp, hm, hfirst], ?_⟩
      unfold step
      simp only [hc]
      simp [hm, hb, hprev]
    · rw [if_neg hfirst] at hprev
      refine Or.inr ⟨by simp only [dp]; unfold MSIZE; omega,
        { s with current_block := s.current_block - 1, mc := MSIZE - 1,
                 mem := s.current_block - 1, pc := s.pc + 1 }, ?_, ?_, ?_, rfl, rfl, rfl,
        rfl⟩
      · unfold step
        simp only [hc]
        simp [hm, hb, hprev]
      · exact ⟨h.first, by have := h.cur; dsimp only; omega, rfl,
          by dsimp only; unfold MSIZE; omega, h.prev, h.next⟩
      · simp only [dp]
        unfold MSIZE at *
        omega
  · refine Or.inr ⟨by simp only [dp]; omega,
      { s with mc := s.mc - 1, pc := s.pc + 1 }, ?_, ?_, ?_, rfl, rfl, rfl, rfl⟩
    · unfold step
      simp only [hc]
      simp [hm]
    · exact ⟨h.first, h.cur, h.mem, by have := h.mc; dsimp only; omega, h.prev,
        h.next⟩
    · simp only [dp]
      omega

theorem tapeOK_congr {s1 s2 : State} (h : TapeOK s1) (hb : s2.blocks = s1.blocks)
    (hf : s2.first_block = s1.first_block) (hc : s2.current_block = s1.current_block)
    (hm : s2.mem = s1.mem) (hmc : s2.mc = s1.mc) : TapeOK s2 := by
  constructor
  · rw [hf]; exact h.first
  · rw [hc, hb]; exact h.cur
  · rw [hm, hc]; exact h.mem
  · rw [hmc]; exact h.mc
  · rw [hb]; exact h.prev
  · rw [hb]; exact h.next

theorem flat_ext {a b : FlatState} (h1 : a.pc = b.pc) (h2 : a.dp = b.dp)
    (h3 : a.tape = b.tape) (h4 : a.input = b.input) (h5 : a.output = b.output) : a = b := by
  cases a; cases b
  simp only at h1 h2 h3 h4 h5
  subst h1 h2 h3 h4 h5
  rfl

/-- A store in the current cell followed by `pc++`, as `+`, `-` and `,` do it. -/
theorem store_sim {s : State} (h : TapeOK s) (v : Nat) (inp : List Nat) :
    ∃ s1, poke s v = some s1 ∧
      ({ s1 with pc := s.pc + 1 } : State) = { s1 with input := s.input, pc := s.pc + 1 } ∧
      TapeOK { s1 with input := inp, pc := s.pc + 1 } ∧
      abs_state { s1 with input := inp, pc := s.pc + 1 } =
        { abs_state s with tape := tape_set (abs_state s).tape (abs_state s).dp v,
                           input := inp, pc := (abs_state s).pc + 1 } := by
  obtain ⟨s1, h1, h2, h3, h4, h5, _, h7, h8, _, _⟩ := poke_eq h v
  refine ⟨s1, h1, by rw [← h7], tapeOK_congr h2 rfl rfl rfl rfl rfl, ?_⟩
  apply flat_ext
  · rfl
  · simp only [abs_state, dp, h4, h5]
  · simp only [abs_state, h3]
  · rfl
  · simp only [abs_state, h8]

/-- One iteration of `simplebf` on a well shaped tape is one instruction of the
reference engine on the flat tape it stands for, and it keeps the tape well shaped. -/
theorem step_sim (code : List Nat) (lps : loops) {s : State} (h : TapeOK s) :
    abs_run (step code lps s) = flat_step code lps (abs_state s) ∧
    RunOK (step code lps s) := by
  have hpeek := peek_eq h
  have hpc : (abs_state s).pc = s.pc := rfl
  have htape : (abs_state s).tape (abs_state s).dp = cell s.blocks (dp s) := rfl
  by_cases h0 : code.getD s.pc 0 = 0
  · unfold step flat_step
    simp only [hpc, h0]
    exact ⟨rfl, h⟩
  by_cases h62 : code.getD s.pc 0 = 62
  · obtain ⟨s1, hs, hok, hdp, hcell, hp, hi, ho⟩ := step_right code lps h h62
    rw [hs]
    refine ⟨?_, hok⟩
    unfold flat_step
    simp only [hpc, h62]
    simp only [abs_run, Nat.reduceEqDiff, if_false, if_true]
    congr 1
    apply flat_ext <;> simp only [abs_state, hdp, hcell, hp, hi, ho]
  by_cases h60 : code.getD s.pc 0 = 60
  · unfold flat_step
    simp only [hpc, h60]
    simp only [Nat.reduceEqDiff, if_false, if_true]
    rcases step_left code lps h h60 with ⟨hd, hs⟩ | ⟨hd, s1, hs, hok, hdp, hcell, hp, hi, ho⟩
    · rw [hs]
      have hd' : (abs_state s).dp = 0 := hd
      rw [if_pos hd']
      exact ⟨rfl, h⟩
    · rw [hs]
      have hd' : ¬ (abs_state s).dp = 0 := hd
      rw [if_neg hd']
      refine ⟨?_, hok⟩
      simp only [abs_run]
      congr 1
      apply flat_ext <;> simp only [abs_state, hdp, hcell, hp, hi, ho]
  by_cases h43 : code.getD s.pc 0 = 43
  · obtain ⟨s1, hs1, he, hok, habs⟩ :=
      store_sim h ((cell s.blocks (dp s) + 1) % 256) s.input
    unfold step flat_step
    simp only [hpc, h43, htape, hpeek, hs1, he]
    exact ⟨congrArg FlatRun.running habs, hok⟩
  by_cases h45 : code.getD s.pc 0 = 45
  · obtain ⟨s1, hs1, he, hok, habs⟩ :=
      store_sim h (((cell s.blocks (dp s) : Int) - 1) % 256).toNat s.input
    unfold step flat_step
    simp only [hpc, h45, htape, hpeek, hs1, he]
    exact ⟨congrArg FlatRun.running habs, hok⟩
  by_cases h46 : code.getD s.pc 0 = 46
  · unfold step flat_step
    simp only [hpc, h46, htape, hpeek]
    exact ⟨rfl, tapeOK_congr h rfl rfl rfl rfl rfl⟩
  by_cases h44 : code.getD s.pc 0 = 44
  · obtain ⟨s1, hs1, _, hok, habs⟩ :=
      store_sim h (((getchar s.input).1) % 256).toNat (getchar s.input).2
    have hin : (abs_state s).input = s.input := rfl
    unfold step flat_step
    simp only [hpc, h44, htape, hpeek, hs1, hin]
    exact ⟨congrArg FlatRun.running habs, hok⟩
  by_cases h91 : code.getD s.pc 0 = 91
  · unfold step flat_step
    simp only [hpc, h91, htape, hpeek]
    simp only [Nat.reduceEqDiff, if_false, if_true]
    by_cases hv : cell s.blocks (dp s) = 0
    · rw [if_pos hv, if_pos hv]
      cases find_loop_by_start lps s.pc with
      | none => exact ⟨rfl, trivial⟩
      | some o =>
        cases o with
        | none => exact ⟨rfl, h⟩
        | some l => exact ⟨rfl, tapeOK_congr h rfl rfl rfl rfl rfl⟩
    · rw [if_neg hv, if_neg hv]
      exact ⟨rfl, tapeOK_congr h rfl rfl rfl rfl rfl⟩
  by_cases h93 : code.getD s.pc 0 = 93
  · unfold step flat_step
    simp only [hpc, h93, htape, hpeek]
    simp only [Nat.reduceEqDiff, if_false, if_true]
    by_cases hv : cell s.blocks (dp s) ≠ 0
    · rw [if_pos hv, if_pos hv]
      cases find_loop_by_end lps s.pc with
      | none => exact ⟨rfl, trivial⟩
      | some o =>
        cases o with
        | none => exact ⟨rfl, h⟩
        | some l => exact ⟨rfl, tapeOK_congr h rfl rfl rfl rfl rfl⟩
    · rw [if_neg hv, if_neg hv]
      exact ⟨rfl, tapeOK_congr h rfl rfl rfl rfl rfl⟩
  · unfold step flat_step
    simp only [hpc, h0, h62, h60, h43, h45, h46, h44, h91, h93, if_false]
    exact ⟨rfl, h⟩

theorem init_sim (input : List Nat) :
    abs_run (simplebf_init input) = flat_init input ∧ RunOK (simplebf_init input) := by
  have hinit : simplebf_init input = .running
      { blocks := [{ m := fun _ => 0, next := none, previous := none }], first_block := 0,
        current_block := 0, mem := 0, pc := 0, mc := 0, input := input, output := [] } := rfl
  rw [hinit]
  constructor
  · refine congrArg FlatRun.running (flat_ext ?_ ?_ ?_ ?_ ?_)
    · rfl
    · show 0 * MSIZE + 0 = 0
      omega
    · funext i
      simp only [abs_state, cell]
      cases i / MSIZE with
      | zero => rfl
      | succ k => rfl
    · rfl
    · rfl
  · show TapeOK _
    constructor
    · rfl
    · show 0 < 1
      omega
    · rfl
    · show 0 < MSIZE
      unfold MSIZE
      omega
    · intro k b hk
      cases k with
      | zero =>
        simp at hk
        subst hk
        rfl
      | succ k => simp at hk
    · intro k b hk
      cases k with
      | zero =>
        simp at hk
        subst hk
        rfl
      | succ k => simp at hk

theorem advance_sim (code : List Nat) (lps : loops) (x : Run) (hx : RunOK x) :
    abs_run (advance code lps x) = flat_advance code lps (abs_run x) ∧
    RunOK (advance code lps x) := by
  cases x with
  | running s => exact step_sim code lps hx
  | returned st s => exact ⟨rfl, hx⟩
  | crashed => exact ⟨rfl, trivial⟩

/-- The run of `simplebf` and the run of the reference engine go in lockstep. -/
theorem steps_sim (code : List Nat) (lps : loops) (input : List Nat) (n : Nat) :
    abs_run (simplebf_steps code lps input n) = flat_steps code lps input n ∧
    RunOK (simplebf_steps code lps input n) := by
  induction n with
  | zero => exact init_sim input
  | succ n ih =>
    obtain ⟨h1, h2⟩ := advance_sim code lps _ ih.2
    refine ⟨?_, h2⟩
    rw [simplebf_steps, flat_steps, h1, ih.1]

theorem simplebf_eq_flat (fuel : Nat) (code : List Nat) (lps : loops) (input : List Nat) :
    simplebf fuel code lps input = flat_simplebf fuel code lps input := by
  have h := (steps_sim code lps input fuel).1
  unfold simplebf flat_simplebf
  rw [← h]
  cases simplebf_steps code lps input fuel <;> rfl

/-- A state met at the head of the loop of `simplebf` has a well shaped tape. -/
theorem reach_ok {code : List Nat} {lps : loops} {input : List Nat} {n : Nat} {s : State}
    (h : simplebf_steps code lps input n = .running s) : TapeOK s := by
  have := (steps_sim code lps input n).2
  rw [h] at this
  exact this

/-- C6: the segmented tape of `simplebf` refines the flat, unbounded, zero-initialised
tape. With `dp = current_block * MSIZE + mc` and cell `i` read as
`block[i / MSIZE].m[i % MSIZE]` (0 when the block is not allocated), for every
instruction sequence, loop index and input stream the run of `simplebf` and the run of
the reference engine over `(pc, dp, tape)` correspond after every number of steps, each
step of `simplebf` from a state of the run is the step of the reference engine, and
the two give the same exit status and the same output bytes in the same order. -/
theorem segmented_tape_refines_flat (code : List Nat) (lps : loops) (input : List Nat) :
    (∀ n : Nat, abs_run (simplebf_steps code lps input n) = flat_steps code lps input n) ∧
    (∀ (n : Nat) (s : State), simplebf_steps code lps input n = .running s →
      abs_run (step code lps s) = flat_step code lps (abs_state s)) ∧
    (∀ fuel : Nat, simplebf fuel code lps input = flat_simplebf fuel code lps input) :=
  ⟨fun n => (steps_sim code lps input n).1,
   fun _ _ h => (step_sim code lps (reach_ok h)).1,
   fun fuel => simplebf_eq_flat fuel code lps input⟩

/-- The first step of the program `+`, on which the step part of C6 is applied. -/
theorem segmented_tape_refines_flat_witness :
    simplebf_steps [43] no_loops [] 0 = .running (init_state []) ∧
    abs_run (step [43] no_loops (init_state [])) =
      flat_step [43] no_loops (abs_state (init_state [])) :=
  ⟨rfl, (segmented_tape_refines_flat [43] no_loops []).2.1 0 (init_state []) rfl⟩

theorem returned_stays (code : List Nat) (lps : loops) (input : List Nat) (n : Nat)
    (st : Nat) (s : State) (h : simplebf_steps code lps input n = .returned st s) (m : Nat) :
    simplebf_steps code lps input (n + m) = .returned st s := by
  induction m with
  | zero => exact h
  | succ m ih =>
    rw [← Nat.add_assoc, simplebf_steps, ih]
    rfl

/-! ## Claims on the execution engine -/

theorem step_input (code : List Nat) (lps : loops) (s : State) (i : List Nat)
    (hc : code.getD s.pc 0 ≠ 44) :
    step code lps { s with input := i } = with_input i (step code lps s) := by
  have hpeek : peek { s with input := i } = peek s := rfl
  have hpoke : ∀ v, poke { s with input := i } v =
      (poke s v).map (fun s1 => { s1 with input := i }) := by
    intro v
    unfold poke
    dsimp only
    cases s.blocks[s.mem]? with
    | none => rfl
    | some b =>
      dsimp only
      by_cases hm : s.mc < MSIZE
      · rw [if_pos hm, if_pos hm]; rfl
      · rw [if_neg hm, if_neg hm]; rfl
  unfold step
  dsimp only
  by_cases h0 : code.getD s.pc 0 = 0
  · simp only [h0, if_true]; rfl
  by_cases h62 : code.getD s.pc 0 = 62
  · simp only [h62, Nat.reduceEqDiff, if_false, if_true]
    by_cases hm : s.mc + 1 = MSIZE
    · rw [if_pos hm, if_pos hm]
      cases s.blocks[s.current_block]? with
      | none => rfl
      | some b =>
        dsimp only
        cases b.next with
        | some nx => rfl
        | none => rfl
    · rw [if_neg hm, if_neg hm]; rfl
  by_cases h60 : code.getD s.pc 0 = 60
  · simp only [h60, Nat.reduceEqDiff, if_false, if_true]
    by_cases hm : s.mc = 0
    · rw [if_pos hm, if_pos hm]
      cases s.blocks[s.current_block]? with
      | none => rfl
      | some b =>
        dsimp only
        cases b.previous with
        | some nx => rfl
        | none => rfl
    · rw [if_neg hm, if_neg hm]; rfl
  by_cases h43 : code.getD s.pc 0 = 43
  · simp only [h43, Nat.reduceEqDiff, if_false, if_true, hpeek, hpoke]
    cases peek s with
    | none => rfl
    | some v =>
      dsimp only
      cases poke s ((v + 1) % 256) with
      | none => rfl
      | some s1 => rfl
  by_cases h45 : code.getD s.pc 0 = 45
  · simp only [h45, Nat.reduceEqDiff, if_false, if_true, hpeek, hpoke]
    cases peek s with
    | none => rfl
    | some v =>
      dsimp only
      cases poke s (((v : Int) - 1) % 256).toNat with
      | none => rfl
      | some s1 => rfl
  by_cases h46 : code.getD s.pc 0 = 46
  · simp only [h46, Nat.reduceEqDiff, if_false, if_true, hpeek]
    cases peek s with
    | none => rfl
    | some v => rfl
  by_cases h91 : code.getD s.pc 0 = 91
  · simp only [h91, Nat.reduceEqDiff, if_false, if_true, hpeek]
    cases peek s with
    | none => rfl
    | some v =>
      dsimp only
      by_cases hv : v = 0
      · rw [if_pos hv, if_pos hv]
        cases find_loop_by_start lps s.pc with
        | none => rfl
        | some o =>
          cases o with
          | none => rfl
          | some l => rfl
      · rw [if_neg hv, if_neg hv]; rfl
  by_cases h93 : code.getD s.pc 0 = 93
  · simp only [h93, Nat.reduceEqDiff, if_false, if_true, hpeek]
    cases peek s with
    | none => rfl
    | some v =>
      dsimp only
      by_cases hv : v ≠ 0
      · rw [if_pos hv, if_pos hv]
        cases find_loop_by_end lps s.pc with
        | none => rfl
        | some o =>
          cases o with
          | none => rfl
          | some l => rfl
      · rw [if_neg hv, if_neg hv]; rfl
  · simp only [h0, h62, h60, h43, h45, h46, hc, h91, h93, if_false]
    rfl

theorem steps_input (code : List Nat) (lps : loops) (input : List Nat)
    (hc : ∀ c ∈ code, c ≠ 44) (n : Nat) :
    simplebf_steps code lps input n = with_input input (simplebf_steps code lps [] n) := by
  induction n with
  | zero => rfl
  | succ n ih =>
    rw [simplebf_steps, simplebf_steps, ih]
    cases simplebf_steps code lps [] n with
    | running s =>
      have hne : code.getD s.pc 0 ≠ 44 := by
        rw [List.getD_eq_getElem?_getD]
        cases hq : code[s.pc]? with
        | none => decide
        | some c => exact hc c (List.getElem?_mem hq)
      exact step_input code lps s input hne
    | returned st s => rfl
    | crashed => rfl

/-- A program without `,` returns the same status and output on every input stream. -/
theorem simplebf_input (code : List Nat) (lps : loops) (input : List Nat)
    (hc : ∀ c ∈ code, c ≠ 44) (fuel : Nat) :
    simplebf fuel code lps input = simplebf fuel code lps [] := by
  unfold simplebf
  rw [steps_input code lps input hc fuel]
  cases simplebf_steps code lps [] fuel <;> rfl

theorem simplebf_more_fuel (code : List Nat) (lps : loops) (input : List Nat)
    (fuel : Nat) (st : Nat) (out : List Nat)
    (h : simplebf fuel code lps input = some (st, out)) (k : Nat) :
    simplebf (fuel + k) code lps input = some (st, out) := by
  unfold simplebf at h ⊢
  cases hs : simplebf_steps code lps input fuel with
  | running s => rw [hs] at h; cases h
  | returned st1 s =>
    rw [hs] at h
    rw [returned_stays code lps input fuel st1 s hs k]
    exact h
  | crashed => rw [hs] at h; cases h

set_option maxRecDepth 100000 in
/-- C7: the program `++++++++[>++++++++<-]>.`, with the loop index `register_loops`
builds for it, returns status 0 after 108 iterations of the loop of `simplebf` (and
stays returned with more fuel), having written exactly one byte, of value 64, whatever
the input stream is. -/
theorem scenario_one_outputs_64 :
    ∃ r, register_loops [43, 43, 43, 43, 43, 43, 43, 43, 91, 62, 43, 43, 43, 43, 43, 43,
        43, 43, 60, 45, 93, 62, 46] = .ok r ∧
      ∀ (input : List Nat) (k : Nat),
        simplebf (108 + k) [43, 43, 43, 43, 43, 43, 43, 43, 91, 62, 43, 43, 43, 43, 43,
          43, 43, 43, 60, 45, 93, 62, 46] r input = some (0, [64]) := by
  refine ⟨{ heap := [{ start := 8, end_ := 20, next_in_list := none,
                       previous_in_stack := none }],
            first := some 0, current_in_list := some 0, current_in_stack := none },
    by decide, ?_⟩
  intro input k
  rw [simplebf_input _ _ input (by decide)]
  exact simplebf_more_fuel _ _ _ 108 0 [64] (by decide) k

theorem running_of_abs {x : Run} {fs : FlatState} (h : abs_run x = .running fs) :
    ∃ s1, x = .running s1 ∧ abs_state s1 = fs := by
  cases x with
  | running s => exact ⟨s, rfl, by simpa [abs_run] using h⟩
  | returned st s => simp [abs_run] at h
  | crashed => simp [abs_run] at h

theorem flat_step_plus (code : List Nat) (lps : loops) (fs : FlatState)
    (hc : code.getD fs.pc 0 = 43) :
    flat_step code lps fs = .running
      { fs with tape := tape_set fs.tape fs.dp ((fs.tape fs.dp + 1) % 256),
                pc := fs.pc + 1 } := by
  unfold flat_step
  simp only [hc]
  rfl

theorem flat_step_minus (code : List Nat) (lps : loops) (fs : FlatState)
    (hc : code.getD fs.pc 0 = 45) :
    flat_step code lps fs = .running
      { fs with tape := tape_set fs.tape fs.dp (((fs.tape fs.dp : Int) - 1) % 256).toNat,
                pc := fs.pc + 1 } := by
  unfold flat_step
  simp only [hc]
  rfl

/-- The effect of `+` on a well shaped tape. -/
theorem step_plus (code : List Nat) (lps : loops) {s : State} (h : TapeOK s)
    (hc : code.getD s.pc 0 = 43) :
    ∃ s1, step code lps s = .running s1 ∧
      (∀ i : Nat, cell s1.blocks i =
        if i = dp s then (cell s.blocks (dp s) + 1) % 256 else cell s.blocks i) ∧
      dp s1 = dp s ∧ s1.input = s.input ∧ s1.output = s.output ∧ s1.pc = s.pc + 1 := by
  have hsim := (step_sim code lps h).1
  rw [flat_step_plus code lps (abs_state s) hc] at hsim
  obtain ⟨s1, hs1, habs⟩ := running_of_abs hsim
  refine ⟨s1, hs1, ?_, ?_, ?_, ?_, ?_⟩
  · intro i
    have := congrArg (fun f => f.tape i) habs
    exact this
  · exact congrArg FlatState.dp habs
  · exact congrArg FlatState.input habs
  · exact congrArg FlatState.output habs
  · exact congrArg FlatState.pc habs

/-- The effect of `-` on a well shaped tape. -/
theorem step_minus (code : List Nat) (lps : loops) {s : State} (h : TapeOK s)
    (hc : code.getD s.pc 0 = 45) :
    ∃ s1, step code lps s = .running s1 ∧
      (∀ i : Nat, cell s1.blocks i =
        if i = dp s then (((cell s.blocks (dp s) : Nat) : Int) - 1) % 256 |>.toNat
        else cell s.blocks i) ∧
      dp s1 = dp s ∧ s1.input = s.input ∧ s1.output = s.output ∧ s1.pc = s.pc + 1 := by
  have hsim := (step_sim code lps h).1
  rw [flat_step_minus code lps (abs_state s) hc] at hsim
  obtain ⟨s1, hs1, habs⟩ := running_of_abs hsim
  refine ⟨s1, hs1, ?_, ?_, ?_, ?_, ?_⟩
  · intro i
    have := congrArg (fun f => f.tape i) habs
    exact this
  · exact congrArg FlatState.dp habs
  · exact congrArg FlatState.input habs
  · exact congrArg FlatState.output habs
  · exact congrArg FlatState.pc habs

theorem plus_run (code : List Nat) (lps : loops) (input : List Nat) (n : Nat) (s : State)
    (hreach : simplebf_steps code lps input n = .running s)
    (hz : cell s.blocks (dp s) = 0) : ∀ k : Nat,
    (∀ j : Nat, j < k → code.getD (s.pc + j) 0 = 43) →
    ∃ s1, simplebf_steps code lps input (n + k) = .running s1 ∧ dp s1 = dp s ∧
      s1.pc = s.pc + k ∧ cell s1.blocks (dp s1) = k % 256 := by
  intro k
  induction k with
  | zero => intro _; exact ⟨s, hreach, rfl, rfl, by rw [hz]⟩
  | succ k ih =>
    intro hk
    obtain ⟨s1, h1, h2, h3, h4⟩ := ih (fun j hj => hk j (by omega))
    have hc : code.getD s1.pc 0 = 43 := by rw [h3]; exact hk k (by omega)
    obtain ⟨s2, g1, g2, g3, _, _, g6⟩ := step_plus code lps (reach_ok h1) hc
    refine ⟨s2, ?_, by rw [g3, h2], by rw [g6, h3]; omega, ?_⟩
    · rw [← Nat.add_assoc, simplebf_steps, h1]
      exact g1
    · rw [g3, g2 (dp s1), if_pos rfl, h4]
      omega

/-- C8: in every state of a run of `simplebf` that is at a `<`, the run is aborted with
a non-zero status exactly when the data pointer is at tape position 0, which is
`mc = 0` in the first block; the abort is status 1, the run then stays returned in the
state the `<` was met in (no further instruction runs, no byte is written after it);
and a program whose first instruction is `<` returns status 1 with no output. -/
theorem left_of_origin (code : List Nat) (lps : loops) (input : List Nat) (n : Nat)
    (s : State) (hreach : simplebf_steps code lps input n = .running s)
    (hc : code.getD s.pc 0 = 60) :
    ((∃ st s1, st ≠ 0 ∧ step code lps s = .returned st s1) ↔ dp s = 0) ∧
    (dp s = 0 ↔ (s.mc = 0 ∧ s.current_block = s.first_block)) ∧
    (dp s = 0 → ∀ m : Nat,
      simplebf_steps code lps input (n + 1 + m) = .returned 1 s ∧
      simplebf (n + 1 + m) code lps input = some (1, s.output)) ∧
    (n = 0 → ∀ m : Nat, simplebf (1 + m) code lps input = some (1, [])) := by
  have hok := reach_ok hreach
  have hstay : dp s = 0 → ∀ m : Nat,
      simplebf_steps code lps input (n + 1 + m) = .returned 1 s ∧
      simplebf (n + 1 + m) code lps input = some (1, s.output) := by
    intro hd m
    have hstep : step code lps s = .returned 1 s := by
      rcases step_left code lps hok hc with ⟨_, h1⟩ | ⟨h1, _⟩
      · exact h1
      · exact absurd hd h1
    have h1 : simplebf_steps code lps input (n + 1) = .returned 1 s := by
      rw [simplebf_steps, hreach]
      exact hstep
    have h2 := returned_stays code lps input (n + 1) 1 s h1 m
    refine ⟨h2, ?_⟩
    unfold simplebf
    rw [h2]
  have hdp : dp s = 0 ↔ (s.mc = 0 ∧ s.current_block = s.first_block) := by
    rw [hok.first]
    unfold dp MSIZE
    omega
  refine ⟨?_, hdp, hstay, ?_⟩
  · constructor
    · rintro ⟨st, s1, _, hs⟩
      rcases step_left code lps hok hc with ⟨h1, _⟩ | ⟨_, s2, h2, _⟩
      · exact h1
      · rw [h2] at hs
        cases hs
    · intro hd
      rcases step_left code lps hok hc with ⟨_, h1⟩ | ⟨h1, _⟩
      · exact ⟨1, s, by decide, h1⟩
      · exact absurd hd h1
  · intro hn m
    subst hn
    have hinit : simplebf_steps code lps input 0 = .running
        { blocks := [{ m := fun _ => 0, next := none, previous := none }],
          first_block := 0, current_block := 0, mem := 0, pc := 0, mc := 0,
          input := input, output := [] } := rfl
    rw [hinit] at hreach
    have hs := Run.running.inj hreach
    subst hs
    have := (hstay (by simp [dp]) m).2
    simpa [Nat.add_comm] using this

/-- The states `<` is met in by the program `<`, on which C8 is applied. -/
theorem left_of_origin_witness :
    simplebf_steps [60] no_loops [] 0 = .running (init_state []) ∧
    [60].getD (init_state []).pc 0 = 60 ∧
    (((∃ st s1, st ≠ 0 ∧ step [60] no_loops (init_state []) = .returned st s1) ↔
        dp (init_state []) = 0) ∧
      (dp (init_state []) = 0 ↔
        ((init_state []).mc = 0 ∧
          (init_state []).current_block = (init_state []).first_block)) ∧
      (dp (init_state []) = 0 → ∀ m : Nat,
        simplebf_steps [60] no_loops [] (0 + 1 + m) = .returned 1 (init_state []) ∧
        simplebf (0 + 1 + m) [60] no_loops [] = some (1, (init_state []).output)) ∧
      (0 = 0 → ∀ m : Nat, simplebf (1 + m) [60] no_loops [] = some (1, []))) :=
  ⟨rfl, rfl, left_of_origin [60] no_loops [] 0 (init_state []) rfl rfl⟩

/-- C9: in every state of a run of `simplebf`, `+` replaces the cell at the data
pointer by `(v + 1) mod 256` and `-` replaces it by `(v - 1) mod 256`; every other
cell, the data pointer, the input and the output are unchanged and `pc` advances by
one. Hence `k` consecutive `+` on a zeroed cell leave it at `k mod 256` (0 after 256
of them), and one `-` on a zeroed cell leaves it at 255. -/
theorem plus_minus_wrap (code : List Nat) (lps : loops) (input : List Nat) (n : Nat)
    (s : State) (hreach : simplebf_steps code lps input n = .running s) :
    (code.getD s.pc 0 = 43 →
      ∃ s1, step code lps s = .running s1 ∧
        (∀ i : Nat, cell s1.blocks i =
          if i = dp s then (cell s.blocks (dp s) + 1) % 256 else cell s.blocks i) ∧
        dp s1 = dp s ∧ s1.input = s.input ∧ s1.output = s.output ∧ s1.pc = s.pc + 1) ∧
    (code.getD s.pc 0 = 45 →
      ∃ s1, step code lps s = .running s1 ∧
        (∀ i : Nat, cell s1.blocks i =
          if i = dp s then (((cell s.blocks (dp s) : Nat) : Int) - 1) % 256 |>.toNat
          else cell s.blocks i) ∧
        dp s1 = dp s ∧ s1.input = s.input ∧ s1.output = s.output ∧ s1.pc = s.pc + 1) ∧
    (cell s.blocks (dp s) = 0 → ∀ k : Nat,
      (∀ j : Nat, j < k → code.getD (s.pc + j) 0 = 43) →
      ∃ s1, simplebf_steps code lps input (n + k) = .running s1 ∧ dp s1 = dp s ∧
        cell s1.blocks (dp s1) = k % 256) ∧
    (cell s.blocks (dp s) = 0 →
      (∀ j : Nat, j < 256 → code.getD (s.pc + j) 0 = 43) →
      ∃ s1, simplebf_steps code lps input (n + 256) = .running s1 ∧ dp s1 = dp s ∧
        cell s1.blocks (dp s1) = 0) ∧
    (cell s.blocks (dp s) = 0 → code.getD s.pc 0 = 45 →
      ∃ s1, step code lps s = .running s1 ∧ dp s1 = dp s ∧
        cell s1.blocks (dp s1) = 255) := by
  have hok := reach_ok hreach
  refine ⟨step_plus code lps hok, step_minus code lps hok, ?_, ?_, ?_⟩
  · intro hz k hk
    obtain ⟨s1, h1, h2, _, h4⟩ := plus_run code lps input n s hreach hz k hk
    exact ⟨s1, h1, h2, h4⟩
  · intro hz hk
    obtain ⟨s1, h1, h2, _, h4⟩ := plus_run code lps input n s hreach hz 256 hk
    exact ⟨s1, h1, h2, h4⟩
  · intro hz hc
    obtain ⟨s1, h1, h2, h3, _⟩ := step_minus code lps hok hc
    refine ⟨s1, h1, h3, ?_⟩
    rw [h3, h2 (dp s), if_pos rfl, hz]
    rfl

/-- The first state of the program `+`, on which C9 is applied. -/
theorem plus_minus_wrap_witness :
    simplebf_steps [43] no_loops [] 0 = .running (init_state []) ∧
    ((([43] : List Nat).getD (init_state []).pc 0 = 43 →
      ∃ s1, step [43] no_loops (init_state []) = .running s1 ∧
        (∀ i : Nat, cell s1.blocks i =
          if i = dp (init_state []) then
            (cell (init_state []).blocks (dp (init_state [])) + 1) % 256
          else cell (init_state []).blocks i) ∧
        dp s1 = dp (init_state []) ∧ s1.input = (init_state []).input ∧
        s1.output = (init_state []).output ∧ s1.pc = (init_state []).pc + 1) ∧
    (([43] : List Nat).getD (init_state []).pc 0 = 45 →
      ∃ s1, step [43] no_loops (init_state []) = .running s1 ∧
        (∀ i : Nat, cell s1.blocks i =
          if i = dp (init_state []) then
            (((cell (init_state []).blocks (dp (init_state [])) : Nat) : Int) - 1) % 256
              |>.toNat
          else cell (init_state []).blocks i) ∧
        dp s1 = dp (init_state []) ∧ s1.input = (init_state []).input ∧
        s1.output = (init_state []).output ∧ s1.pc = (init_state []).pc + 1) ∧
    (cell (init_state []).blocks (dp (init_state [])) = 0 → ∀ k : Nat,
      (∀ j : Nat, j < k → ([43] : List Nat).getD ((init_state []).pc + j) 0 = 43) →
      ∃ s1, simplebf_steps [43] no_loops [] (0 + k) = .running s1 ∧
        dp s1 = dp (init_state []) ∧ cell s1.blocks (dp s1) = k % 256) ∧
    (cell (init_state []).blocks (dp (init_state [])) = 0 →
      (∀ j : Nat, j < 256 → ([43] : List Nat).getD ((init_state []).pc + j) 0 = 43) →
      ∃ s1, simplebf_steps [43] no_loops [] (0 + 256) = .running s1 ∧
        dp s1 = dp (init_state []) ∧ cell s1.blocks (dp s1) = 0) ∧
    (cell (init_state []).blocks (dp (init_state [])) = 0 →
      ([43] : List Nat).getD (init_state []).pc 0 = 45 →
      ∃ s1, step [43] no_loops (init_state []) = .running s1 ∧
        dp s1 = dp (init_state []) ∧ cell s1.blocks (dp s1) = 255)) :=
  ⟨rfl, plus_minus_wrap [43] no_loops [] 0 (init_state []) rfl⟩

theorem right_prog_getD (n k : Nat) :
    (List.replicate n 62 ++ [43, 46]).getD k 0 =
      if k < n then 62 else if k = n then 43 else if k = n + 1 then 46 else 0 := by
  rw [List.getD_eq_getElem?_getD]
  by_cases h1 : k < n
  · rw [if_pos h1, List.getElem?_append_left (by simpa using h1)]
    simp [List.getElem?_replicate, h1]
  · rw [if_neg h1, List.getElem?_append_right (by simpa using h1)]
    simp only [List.length_replicate]
    by_cases h2 : k = n
    · subst h2; simp
    · rw [if_neg h2]
      by_cases h3 : k = n + 1
      · subst h3; simp
      · rw [if_neg h3]
        obtain ⟨d, hd⟩ : ∃ d, k - n = d + 2 := ⟨k - n - 2, by omega⟩
        rw [hd]
        rfl

theorem flat_step_right (code : List Nat) (lps : loops) (fs : FlatState)
    (hc : code.getD fs.pc 0 = 62) :
    flat_step code lps fs = .running { fs with dp := fs.dp + 1, pc := fs.pc + 1 } := by
  unfold flat_step
  simp only [hc]
  rfl

theorem flat_step_dot (code : List Nat) (lps : loops) (fs : FlatState)
    (hc : code.getD fs.pc 0 = 46) :
    flat_step code lps fs =
      .running { fs with output := fs.output ++ [fs.tape fs.dp], pc := fs.pc + 1 } := by
  unfold flat_step
  simp only [hc]
  rfl

theorem flat_step_end (code : List Nat) (lps : loops) (fs : FlatState)
    (hc : code.getD fs.pc 0 = 0) : flat_step code lps fs = .returned 0 fs := by
  unfold flat_step
  simp only [hc]
  rfl

theorem flat_right_run (n : Nat) (lps : loops) (input : List Nat) : ∀ k : Nat, k ≤ n →
    flat_steps (List.replicate n 62 ++ [43, 46]) lps input k =
      .running { pc := k, dp := k, tape := fun _ => 0, input := input, output := [] } := by
  intro k
  induction k with
  | zero => intro _; rfl
  | succ k ih =>
    intro hk
    rw [flat_steps, ih (by omega), flat_advance,
      flat_step_right _ _ _ (by rw [right_prog_getD, if_pos (by omega : k < n)])]

/-- C10: for every `n`, the program made of `n` times `>` followed by `+` and `.`
returns status 0 after `n + 3` iterations, having written exactly one byte, of value
1, whatever the loop index and the input stream are; so it does for
`n = MSIZE + 1 = 30001`, where the pointer has moved into a second block. -/
theorem tape_growth_forward (n : Nat) (lps : loops) (input : List Nat) :
    simplebf (n + 3) (List.replicate n 62 ++ [43, 46]) lps input = some (0, [1]) ∧
    simplebf (MSIZE + 1 + 3) (List.replicate (MSIZE + 1) 62 ++ [43, 46]) lps input =
      some (0, [1]) := by
  have key : ∀ m : Nat,
      simplebf (m + 3) (List.replicate m 62 ++ [43, 46]) lps input = some (0, [1]) := by
    intro m
    rw [simplebf_eq_flat]
    unfold flat_simplebf
    have h0 := flat_right_run m lps input m (Nat.le_refl m)
    have h1 : flat_steps (List.replicate m 62 ++ [43, 46]) lps input (m + 1) =
        .running { pc := m + 1, dp := m, tape := tape_set (fun _ => 0) m 1,
                   input := input, output := [] } := by
      rw [flat_steps, h0, flat_advance,
        flat_step_plus _ _ _ (by rw [right_prog_getD, if_neg (by dsimp only; omega),
          if_pos rfl])]
      rfl
    have h2 : flat_steps (List.replicate m 62 ++ [43, 46]) lps input (m + 2) =
        .running { pc := m + 2, dp := m, tape := tape_set (fun _ => 0) m 1,
                   input := input, output := [1] } := by
      rw [flat_steps, h1, flat_advance,
        flat_step_dot _ _ _ (by rw [right_prog_getD, if_neg (by dsimp only; omega),
          if_neg (by dsimp only; omega), if_pos rfl])]
      simp [tape_set]
    have h3 : flat_steps (List.replicate m 62 ++ [43, 46]) lps input (m + 3) =
        .returned 0 { pc := m + 2, dp := m, tape := tape_set (fun _ => 0) m 1,
                      input := input, output := [1] } := by
      rw [flat_steps, h2, flat_advance,
        flat_step_end _ _ _ (by rw [right_prog_getD, if_neg (by dsimp only; omega),
          if_neg (by dsimp only; omega), if_neg (by dsimp only; omega)])]
    rw [h3]
  exact ⟨key n, key (MSIZE + 1)⟩

/-! ## Claims on loading the program -/

theorem match_id_eq (ids : List Nat) (c : Nat) :
    match_id ids c = if c ∈ ids then [c] else [] := by
  induction ids with
  | nil => simp [match_id]
  | cons x rest ih =>
    rw [match_id]
    by_cases hx : x = c
    · simp [hx]
    · rw [if_neg hx, ih]
      have hx2 : ¬ c = x := fun h => hx h.symm
      simp [hx2]

theorem walk_buf_eq (buf : List Nat) : walk_buf buf = buf.filter is_instr := by
  induction buf with
  | nil => rfl
  | cons c rest ih =>
    rw [walk_buf, ih, match_id_eq, List.filter_cons]
    by_cases hc : c ∈ walk_fd_id
    · simp [is_instr, hc]
    · simp [is_instr, hc]

theorem walk_fd_loop_eq : ∀ (fuel : Nat) (file array : List Nat),
    file.length / 1024 < fuel →
    walk_fd_loop fuel file array = some (array ++ file.filter is_instr) := by
  intro fuel
  induction fuel with
  | zero => intro file array h; omega
  | succ fuel ih =>
    intro file array h
    rw [walk_fd_loop]
    simp only [read]
    by_cases hl : (file.take 1024).length = 1024
    · rw [if_pos hl]
      have hlen : 1024 ≤ file.length := by
        rw [List.length_take] at hl
        omega
      rw [ih _ _ (by rw [List.length_drop]; omega), walk_buf_eq, List.append_assoc,
        ← List.filter_append, List.take_append_drop]
    · rw [if_neg hl]
      have hlen : file.length < 1024 := by
        rw [List.length_take] at hl
        omega
      rw [List.take_of_length_le (by omega), walk_buf_eq]

theorem filter_instr_idem (l : List Nat) :
    (l.filter is_instr).filter is_instr = l.filter is_instr := by
  rw [List.filter_filter]
  congr 1
  funext c
  simp

/-- C17: for every source byte sequence `walk_fd` ends and writes exactly the bytes of
the source that belong to the alphabet `><+-.,[]`, in their order; so filtering the
same text again gives the same sequence, and filtering what it wrote gives it back
unchanged. -/
theorem walk_fd_filters (src : List Nat) :
    walk_fd src = some (src.filter is_instr) ∧
    (∀ out1 out2 : List Nat, walk_fd src = some out1 → walk_fd src = some out2 →
      out1 = out2) ∧
    (∀ out : List Nat, walk_fd src = some out → walk_fd out = some out) := by
  have key : ∀ l : List Nat, walk_fd l = some (l.filter is_instr) := by
    intro l
    have := walk_fd_loop_eq (l.length / 1024 + 1) l [] (by omega)
    simpa [walk_fd] using this
  refine ⟨key src, ?_, ?_⟩
  · intro out1 out2 h1 h2
    rw [h1] at h2
    exact Option.some.inj h2
  · intro out h
    rw [key src] at h
    have := Option.some.inj h
    subst this
    rw [key, filter_instr_idem]

/-- A source with two comment bytes, on which the last part of C17 is applied. -/
theorem walk_fd_filters_witness :
    walk_fd [104, 43, 10, 91] = some [43, 91] ∧ walk_fd [43, 91] = some [43, 91] :=
  ⟨by decide, (walk_fd_filters [104, 43, 10, 91]).2.2 [43, 91] (by decide)⟩

/-! ## The program counter and the jumps -/

/-- What an instruction of the reference engine can come to, by the symbol `c` at `pc`. -/
theorem flat_step_cases (code : List Nat) (lps : loops) (fs : FlatState) :
    match flat_step code lps fs with
    | .running fs1 =>
      code.getD fs.pc 0 ≠ 0 ∧
      (fs1.pc = fs.pc + 1 ∨
       (code.getD fs.pc 0 = 91 ∧ ∃ l, find_loop_by_start lps fs.pc = some (some l) ∧
          fs1.pc = l.end_ + 1) ∨
       (code.getD fs.pc 0 = 93 ∧ ∃ l, find_loop_by_end lps fs.pc = some (some l) ∧
          fs1.pc = l.start + 1))
    | .returned st fs1 =>
      fs1 = fs ∧
      ((st = 0 ∧ code.getD fs.pc 0 = 0) ∨ (st = 1 ∧ code.getD fs.pc 0 = 60) ∨
      (st = 2 ∧ code.getD fs.pc 0 = 91 ∧ find_loop_by_start lps fs.pc = some none) ∨
      (st = 3 ∧ code.getD fs.pc 0 = 93 ∧ find_loop_by_end lps fs.pc = some none) ∨
      (st = 4 ∧ code.getD fs.pc 0 ≠ 0 ∧ is_instr (code.getD fs.pc 0) = false))
    | .crashed =>
      (code.getD fs.pc 0 = 91 ∧ find_loop_by_start lps fs.pc = none) ∨
      (code.getD fs.pc 0 = 93 ∧ find_loop_by_end lps fs.pc = none) := by
  unfold flat_step
  dsimp only
  generalize code.getD fs.pc 0 = c
  by_cases h0 : c = 0
  · subst h0; simp
  by_cases h62 : c = 62
  · subst h62; simp
  by_cases h60 : c = 60
  · subst h60
    by_cases hd : fs.dp = 0 <;> simp [hd]
  by_cases h43 : c = 43
  · subst h43; simp
  by_cases h45 : c = 45
  · subst h45; simp
  by_cases h46 : c = 46
  · subst h46; simp
  by_cases h44 : c = 44
  · subst h44; simp
  by_cases h91 : c = 91
  · subst h91
    by_cases hv : fs.tape fs.dp = 0
    · cases hf : find_loop_by_start lps fs.pc with
      | none => simp [hv]
      | some o =>
        cases o with
        | none => simp [hv]
        | some l => simp [hv]
    · simp [hv]
  by_cases h93 : c = 93
  · subst h93
    by_cases hv : fs.tape fs.dp = 0
    · simp [hv]
    · cases hf : find_loop_by_end lps fs.pc with
      | none => simp [hv]
      | some o =>
        cases o with
        | none => simp [hv]
        | some l => simp [hv]
  · simp [h0, h62, h60, h43, h45, h46, h44, h91, h93, is_instr, walk_fd_id]

theorem heap_of_find_start {r : loops} (h : Linked r) {p : Nat} {l : loop}
    (hf : find_loop_by_start r p = some (some l)) :
    ∃ k : Nat, r.heap[k]? = some l ∧ l.start = p := by
  rw [find_loop_by_start_eq r h] at hf
  have hf1 := Option.some.inj hf
  have hm := List.mem_of_find?_eq_some hf1
  have hp := List.find?_some hf1
  obtain ⟨k, hk⟩ := List.getElem?_of_mem hm
  exact ⟨k, hk, (by simpa using hp : p = _).symm⟩

theorem heap_of_find_end {r : loops} (h : Linked r) {p : Nat} {l : loop}
    (hf : find_loop_by_end r p = some (some l)) :
    ∃ k : Nat, r.heap[k]? = some l ∧ l.end_ = p := by
  rw [find_loop_by_end_eq r h] at hf
  have hf1 := Option.some.inj hf
  have hm := List.mem_of_find?_eq_some hf1
  have hp := List.find?_some hf1
  obtain ⟨k, hk⟩ := List.getElem?_of_mem hm
  exact ⟨k, hk, (by simpa using hp : p = _).symm⟩

theorem instrs_end (code : List Nat) : code.getD (instrs code).length 0 = 0 := by
  induction code with
  | nil => rfl
  | cons c rest ih =>
    by_cases hc : c = 0
    · subst hc
      simp [instrs]
    · have hi : instrs (c :: rest) = c :: instrs rest := by
        simp [instrs, List.takeWhile_cons, hc]
      rw [hi]
      simpa using ih

theorem instrs_get {code : List Nat} {p : Nat} (h : p < (instrs code).length) :
    (instrs code)[p]? = some (code.getD p 0) := by
  have h1 := List.getElem?_eq_getElem h
  rw [h1, instrs_getD h1]

/-- Bounds of a node of the index built over `pre`. -/
theorem node_bounds {pre : List Nat} {r : loops} {stk : List Nat} (h : Inv pre r stk)
    {k : Nat} {l : loop} (hl : r.heap[k]? = some l) :
    l.start < pre.length ∧ l.end_ < pre.length := by
  have hs := lt_of_getElem? (h.abs.start_open k l.start (heap_fields hl).1)
  refine ⟨hs, ?_⟩
  by_cases hk : k ∈ stk
  · rw [pending_end h hl hk]
    omega
  · exact lt_of_getElem? (h.abs.closed k l.start l.end_ (heap_fields hl).1
      (heap_fields hl).2 hk).2.1

/-- With an index built by `register_loops` the program counter never leaves the
instruction sequence: it is at most the position of the terminating NUL. -/
theorem pc_ok {code : List Nat} {r : loops} {stk : List Nat}
    (hinv : Inv (instrs code) r stk) (input : List Nat) : ∀ (n : Nat) (s : State),
    run_state (simplebf_steps code r input n) = some s → s.pc ≤ (instrs code).length := by
  intro n
  induction n with
  | zero =>
    intro s hs
    have : s = init_state input := by
      have h0 : run_state (simplebf_steps code r input 0) = some (init_state input) := rfl
      rw [h0] at hs
      exact (Option.some.inj hs).symm
    subst this
    exact Nat.zero_le _
  | succ n ih =>
    intro s hs
    rw [simplebf_steps] at hs
    cases hprev : simplebf_steps code r input n with
    | crashed => rw [hprev] at hs; cases hs
    | returned st s0 =>
      rw [hprev] at hs
      have := ih s0 (by rw [hprev]; rfl)
      have hs' : s0 = s := by simpa [advance, run_state] using hs
      subst hs'
      exact this
    | running s0 =>
      rw [hprev] at hs
      have hpc := ih s0 (by rw [hprev]; rfl)
      have hok := reach_ok hprev
      have hsim := (step_sim code r hok).1
      have hcases := flat_step_cases code r (abs_state s0)
      rw [← hsim] at hcases
      simp only [advance] at hs
      cases hstep : step code r s0 with
      | crashed => rw [hstep] at hs; cases hs
      | returned st s1 =>
        rw [hstep] at hs hsim
        have hs1 : s1 = s := by simpa [run_state] using hs
        subst hs1
        rw [hstep] at hcases
        have hpc1 : s1.pc = s0.pc := congrArg FlatState.pc hcases.1
        omega
      | running s1 =>
        rw [hstep] at hs hcases
        have hs1 : s1 = s := by simpa [run_state] using hs
        subst hs1
        simp only [abs_run] at hcases
        obtain ⟨hne, hc⟩ := hcases
        have hlt : s0.pc < (instrs code).length := by
          rcases Nat.lt_or_ge s0.pc (instrs code).length with h | h
          · exact h
          · have : s0.pc = (instrs code).length := by omega
            exfalso
            apply hne
            show code.getD s0.pc 0 = 0
            rw [this]
            exact instrs_end code
        have hpcs : (abs_state s1).pc = s1.pc := rfl
        have hpc0 : (abs_state s0).pc = s0.pc := rfl
        rw [hpcs, hpc0] at hc
        rcases hc with h | ⟨_, l, hf, h⟩ | ⟨_, l, hf, h⟩
        · omega
        · obtain ⟨k, hk, _⟩ := heap_of_find_start hinv.linked hf
          have := (node_bounds hinv hk).2
          omega
        · obtain ⟨k, hk, _⟩ := heap_of_find_end hinv.linked hf
          have := (node_bounds hinv hk).1
          omega

theorem inv_of_register {code : List Nat} {r : loops} (h : register_loops code = .ok r) :
    ∃ stk, Inv (instrs code) r stk ∧ depth_after (instrs code) 0 = some stk.length := by
  cases hd : depth_after (instrs code) 0 with
  | none =>
    rw [register_loops_underflow code hd] at h
    cases h
  | some d =>
    obtain ⟨r1, stk, h1, h2, h3⟩ := register_loops_inv code d hd
    rw [h1] at h
    cases h
    exact ⟨stk, h2, by rw [h3]⟩

/-- In a run with an index built by `register_loops`, a non-NUL symbol under the
program counter is the symbol of the instruction sequence at that position. -/
theorem symbol_at_pc {code : List Nat} {r : loops} {stk : List Nat}
    (hinv : Inv (instrs code) r stk) {input : List Nat} {n : Nat} {s : State}
    (hreach : simplebf_steps code r input n = .running s) {c : Nat}
    (hc : code.getD s.pc 0 = c) (hc0 : c ≠ 0) : (instrs code)[s.pc]? = some c := by
  have hle := pc_ok hinv input n s (by rw [hreach]; rfl)
  have hlt : s.pc < (instrs code).length := by
    rcases Nat.lt_or_ge s.pc (instrs code).length with h | h
    · exact h
    · have : s.pc = (instrs code).length := by omega
      rw [this, instrs_end] at hc
      exact absurd hc.symm hc0
  rw [instrs_get hlt, hc]

theorem flat_step_open (code : List Nat) (lps : loops) (fs : FlatState)
    (hc : code.getD fs.pc 0 = 91) :
    (fs.tape fs.dp ≠ 0 → flat_step code lps fs = .running { fs with pc := fs.pc + 1 }) ∧
    (fs.tape fs.dp = 0 → ∀ l, find_loop_by_start lps fs.pc = some (some l) →
      flat_step code lps fs = .running { fs with pc := l.end_ + 1 }) := by
  unfold flat_step
  simp only [hc]
  constructor
  · intro hv
    simp [hv]
  · intro hv l hl
    simp [hv, hl]

theorem flat_step_close (code : List Nat) (lps : loops) (fs : FlatState)
    (hc : code.getD fs.pc 0 = 93) :
    (fs.tape fs.dp = 0 → flat_step code lps fs = .running { fs with pc := fs.pc + 1 }) ∧
    (fs.tape fs.dp ≠ 0 → ∀ l, find_loop_by_end lps fs.pc = some (some l) →
      flat_step code lps fs = .running { fs with pc := l.start + 1 }) := by
  unfold flat_step
  simp only [hc]
  constructor
  · intro hv
    simp [hv]
  · intro hv l hl
    simp [hv, hl]

/-- A step that only moves the program counter, read back on the segmented tape. -/
theorem step_of_flat_jump (code : List Nat) (lps : loops) {s : State} (h : TapeOK s)
    (q : Nat) (hf : flat_step code lps (abs_state s) = .running { abs_state s with pc := q }) :
    ∃ s1, step code lps s = .running s1 ∧ s1.pc = q ∧ cell s1.blocks = cell s.blocks ∧
      dp s1 = dp s ∧ s1.output = s.output ∧ s1.input = s.input := by
  have hsim := (step_sim code lps h).1
  rw [hf] at hsim
  obtain ⟨s1, hs1, habs⟩ := running_of_abs hsim
  exact ⟨s1, hs1, congrArg FlatState.pc habs, congrArg FlatState.tape habs,
    congrArg FlatState.dp habs, congrArg FlatState.output habs,
    congrArg FlatState.input habs⟩

/-- C11: for every balanced program, with the index `register_loops` builds, in every
state of a run whose `pc` is at a `[`: `matchOf pc` is the true matching `]`; when the
cell at the data pointer is zero the step sets `pc` to `matchOf pc + 1`, the
instruction right after that `]`, and when it is not zero to `pc + 1`; the tape, the
data pointer, the output and the input are unchanged. -/
theorem open_bracket_step (code : List Nat) (hb : Balanced (instrs code)) :
    ∃ r, register_loops code = .ok r ∧
      ∀ (input : List Nat) (n : Nat) (s : State),
        simplebf_steps code r input n = .running s → code.getD s.pc 0 = 91 →
        ∃ q, matchOf code r s.pc = some q ∧ TrueMatch (instrs code) s.pc q ∧
          ∃ s1, step code r s = .running s1 ∧
            (cell s.blocks (dp s) = 0 → s1.pc = q + 1) ∧
            (cell s.blocks (dp s) ≠ 0 → s1.pc = s.pc + 1) ∧
            cell s1.blocks = cell s.blocks ∧ dp s1 = dp s ∧ s1.output = s.output ∧
            s1.input = s.input := by
  obtain ⟨r, stk, hr, hinv, hstk⟩ := register_loops_inv code 0 hb
  have hnil : stk = [] := List.length_eq_zero.1 hstk
  subst hnil
  refine ⟨r, hr, ?_⟩
  intro input n s hreach hc
  have hsym := symbol_at_pc hinv hreach hc (by decide)
  obtain ⟨k, l, hl, hls, htm⟩ := inv_open hinv hsym
  have hfs := find_start_of_inv hinv hl
  rw [hls] at hfs
  refine ⟨l.end_, matchOf_open hc hfs, htm, ?_⟩
  have hok := reach_ok hreach
  have hflat := flat_step_open code r (abs_state s) hc
  by_cases hv : cell s.blocks (dp s) = 0
  · obtain ⟨s1, h1, h2, h3, h4, h5, h6⟩ :=
      step_of_flat_jump code r hok (l.end_ + 1) (hflat.2 hv l hfs)
    exact ⟨s1, h1, fun _ => h2, fun hn => absurd hv hn, h3, h4, h5, h6⟩
  · obtain ⟨s1, h1, h2, h3, h4, h5, h6⟩ :=
      step_of_flat_jump code r hok (s.pc + 1) (hflat.1 hv)
    exact ⟨s1, h1, fun hz => absurd hz hv, fun _ => h2, h3, h4, h5, h6⟩

/-- The program `[]` in its first state, on which C11 is applied. -/
theorem open_bracket_step_witness :
    Balanced (instrs [91, 93]) ∧
    ∃ r, register_loops [91, 93] = .ok r ∧
      ∀ (input : List Nat) (n : Nat) (s : State),
        simplebf_steps [91, 93] r input n = .running s →
        ([91, 93] : List Nat).getD s.pc 0 = 91 →
        ∃ q, matchOf [91, 93] r s.pc = some q ∧ TrueMatch (instrs [91, 93]) s.pc q ∧
          ∃ s1, step [91, 93] r s = .running s1 ∧
            (cell s.blocks (dp s) = 0 → s1.pc = q + 1) ∧
            (cell s.blocks (dp s) ≠ 0 → s1.pc = s.pc + 1) ∧
            cell s1.blocks = cell s.blocks ∧ dp s1 = dp s ∧ s1.output = s.output ∧
            s1.input = s.input :=
  ⟨by decide, open_bracket_step [91, 93] (by decide)⟩

/-- C12, as the code has it: for every balanced program, with the index
`register_loops` builds, in every state of a run whose `pc` is at a `]`: `matchOf pc`
is the true matching `[`; when the cell at the data pointer is not zero the step sets
`pc` to `matchOf pc + 1`, the instruction right after that `[` (the `[` itself is not
executed again), and when it is zero to `pc + 1`; the tape, the data pointer, the
output and the input are unchanged. -/
theorem close_bracket_step (code : List Nat) (hb : Balanced (instrs code)) :
    ∃ r, register_loops code = .ok r ∧
      ∀ (input : List Nat) (n : Nat) (s : State),
        simplebf_steps code r input n = .running s → code.getD s.pc 0 = 93 →
        ∃ q, matchOf code r s.pc = some q ∧ TrueMatch (instrs code) q s.pc ∧
          ∃ s1, step code r s = .running s1 ∧
            (cell s.blocks (dp s) ≠ 0 → s1.pc = q + 1) ∧
            (cell s.blocks (dp s) = 0 → s1.pc = s.pc + 1) ∧
            cell s1.blocks = cell s.blocks ∧ dp s1 = dp s ∧ s1.output = s.output ∧
            s1.input = s.input := by
  obtain ⟨r, stk, hr, hinv, hstk⟩ := register_loops_inv code 0 hb
  have hnil : stk = [] := List.length_eq_zero.1 hstk
  subst hnil
  refine ⟨r, hr, ?_⟩
  intro input n s hreach hc
  have hsym := symbol_at_pc hinv hreach hc (by decide)
  obtain ⟨k, l, hl, hle, htm⟩ := inv_close hinv hsym
  have hfe := find_end_of_inv hinv hl (by simp)
  rw [hle] at hfe
  refine ⟨l.start, matchOf_close hc hfe, htm, ?_⟩
  have hok := reach_ok hreach
  have hflat := flat_step_close code r (abs_state s) hc
  by_cases hv : cell s.blocks (dp s) = 0
  · obtain ⟨s1, h1, h2, h3, h4, h5, h6⟩ :=
      step_of_flat_jump code r hok (s.pc + 1) (hflat.1 hv)
    exact ⟨s1, h1, fun hn => absurd hv hn, fun _ => h2, h3, h4, h5, h6⟩
  · obtain ⟨s1, h1, h2, h3, h4, h5, h6⟩ :=
      step_of_flat_jump code r hok (l.start + 1) (hflat.2 hv l hfe)
    exact ⟨s1, h1, fun _ => h2, fun hz => absurd hz hv, h3, h4, h5, h6⟩

/-- The program `++[-]`, whose run reaches its `]` with the cell at 1, on which the
amended C12 is applied. -/
theorem close_bracket_step_witness :
    Balanced (instrs [43, 43, 91, 45, 93]) ∧
    ∃ r, register_loops [43, 43, 91, 45, 93] = .ok r ∧
      ∀ (input : List Nat) (n : Nat) (s : State),
        simplebf_steps [43, 43, 91, 45, 93] r input n = .running s →
        ([43, 43, 91, 45, 93] : List Nat).getD s.pc 0 = 93 →
        ∃ q, matchOf [43, 43, 91, 45, 93] r s.pc = some q ∧ TrueMatch (instrs [43, 43, 91, 45, 93]) q s.pc ∧
          ∃ s1, step [43, 43, 91, 45, 93] r s = .running s1 ∧
            (cell s.blocks (dp s) ≠ 0 → s1.pc = q + 1) ∧
            (cell s.blocks (dp s) = 0 → s1.pc = s.pc + 1) ∧
            cell s1.blocks = cell s.blocks ∧ dp s1 = dp s ∧ s1.output = s.output ∧
            s1.input = s.input :=
  ⟨by decide, close_bracket_step [43, 43, 91, 45, 93] (by decide)⟩

set_option maxRecDepth 100000 in
/-- C12 fails on the program `++[-]`: after four steps the run is at the `]` at
position 4 with the cell at 1, `matchOf 4` is the `[` at position 2, and the next step
leaves `pc` at 3, the `-` after the `[`: the `[` at 2 is not the next instruction
executed. -/
theorem close_bracket_counterexample :
    register_loops [43, 43, 91, 45, 93] = .ok
      { heap := [{ start := 2, end_ := 4, next_in_list := none,
                   previous_in_stack := none }],
        first := some 0, current_in_list := some 0, current_in_stack := none } ∧
    run_pc (simplebf_steps [43, 43, 91, 45, 93]
      { heap := [{ start := 2, end_ := 4, next_in_list := none,
                   previous_in_stack := none }],
        first := some 0, current_in_list := some 0, current_in_stack := none } [] 4)
      = some 4 ∧
    run_cell (simplebf_steps [43, 43, 91, 45, 93]
      { heap := [{ start := 2, end_ := 4, next_in_list := none,
                   previous_in_stack := none }],
        first := some 0, current_in_list := some 0, current_in_stack := none } [] 4) 0
      = some 1 ∧
    matchOf [43, 43, 91, 45, 93]
      { heap := [{ start := 2, end_ := 4, next_in_list := none,
                   previous_in_stack := none }],
        first := some 0, current_in_list := some 0, current_in_stack := none } 4
      = some 2 ∧
    run_pc (simplebf_steps [43, 43, 91, 45, 93]
      { heap := [{ start := 2, end_ := 4, next_in_list := none,
                   previous_in_stack := none }],
        first := some 0, current_in_list := some 0, current_in_stack := none } [] 5)
      = some 3 ∧
    run_status (simplebf_steps [43, 43, 91, 45, 93]
      { heap := [{ start := 2, end_ := 4, next_in_list := none,
                   previous_in_stack := none }],
        first := some 0, current_in_list := some 0, current_in_stack := none } [] 5)
      = none := by
  decide

/-- When the buffer handed to `register_loops` and `simplebf` holds, up to its first
NUL, the eight symbols only, and `register_loops` returns an index for it, a run of
`simplebf` with that index never takes a defensive branch: it never returns 4, 2 or 3
(a returned status is 0 or 1), and no lookup of the index fails to come to an end. -/
theorem no_defensive_error (code : List Nat) (r : loops)
    (halpha : ∀ c ∈ instrs code, is_instr c = true)
    (hreg : register_loops code = .ok r) (input : List Nat) (n : Nat) :
    (∀ (st : Nat) (s : State), simplebf_steps code r input n = .returned st s →
      st ≠ 4 ∧ st ≠ 2 ∧ st ≠ 3 ∧ (st = 0 ∨ st = 1)) ∧
    simplebf_steps code r input n ≠ .crashed := by
  obtain ⟨stk, hinv, _⟩ := inv_of_register hreg
  induction n with
  | zero =>
    constructor
    · intro st s h
      cases h
    · intro h
      cases h
  | succ n ih =>
    rw [simplebf_steps]
    cases hprev : simplebf_steps code r input n with
    | crashed => exact absurd hprev ih.2
    | returned st0 s0 =>
      refine ⟨?_, fun h => (by cases h)⟩
      intro st s h
      simp only [advance] at h
      cases h
      exact ih.1 st0 s0 hprev
    | running s0 =>
      have hok := reach_ok hprev
      have hsim := (step_sim code r hok).1
      have hcases := flat_step_cases code r (abs_state s0)
      rw [← hsim] at hcases
      have hpc0 : (abs_state s0).pc = s0.pc := rfl
      rw [hpc0] at hcases
      simp only [advance]
      cases hstep : step code r s0 with
      | running s1 =>
        exact ⟨fun st s h => (by cases h), fun h => (by cases h)⟩
      | crashed =>
        rw [hstep] at hcases
        simp only [abs_run] at hcases
        rcases hcases with ⟨_, hf⟩ | ⟨_, hf⟩
        · rw [find_loop_by_start_eq r hinv.linked] at hf
          cases hf
        · rw [find_loop_by_end_eq r hinv.linked] at hf
          cases hf
      | returned st1 s1 =>
        refine ⟨?_, fun h => (by cases h)⟩
        intro st s h
        cases h
        rw [hstep] at hcases
        simp only [abs_run] at hcases
        rcases hcases.2 with ⟨h0, _⟩ | ⟨h1, _⟩ | ⟨_, hc, hf⟩ | ⟨_, hc, hf⟩ | ⟨_, hc0, hc⟩
        · subst h0
          exact ⟨by decide, by decide, by decide, Or.inl rfl⟩
        · subst h1
          exact ⟨by decide, by decide, by decide, Or.inr rfl⟩
        · exfalso
          have hsym := symbol_at_pc hinv hprev hc (by decide)
          obtain ⟨k, hk⟩ := hinv.abs.opens_cover _ hsym
          obtain ⟨l, hl, hls⟩ := heap_of_start hk
          have := find_start_of_inv hinv hl
          rw [hls, hf] at this
          cases this
        · exfalso
          have hsym := symbol_at_pc hinv hprev hc (by decide)
          obtain ⟨k, hkn, hk⟩ := hinv.abs.closes_cover _ hsym
          obtain ⟨l, hl, hle⟩ := heap_of_end hk
          have := find_end_of_inv hinv hl hkn
          rw [hle, hf] at this
          cases this
        · exfalso
          have hsym := symbol_at_pc hinv hprev rfl hc0
          have := halpha _ (List.getElem?_mem hsym)
          rw [hc] at this
          cases this

/-- The NUL-terminated program `+[-]` with its index, an instance of the lemma above. -/
theorem no_defensive_error_witness :
    (∀ c ∈ instrs [43, 91, 45, 93], is_instr c = true) ∧
    register_loops [43, 91, 45, 93] = .ok
      { heap := [{ start := 1, end_ := 3, next_in_list := none,
                   previous_in_stack := none }],
        first := some 0, current_in_list := some 0, current_in_stack := none } ∧
    ((∀ (st : Nat) (s : State), simplebf_steps [43, 91, 45, 93]
        { heap := [{ start := 1, end_ := 3, next_in_list := none,
                     previous_in_stack := none }],
          first := some 0, current_in_list := some 0, current_in_stack := none } [] 5
          = .returned st s →
        st ≠ 4 ∧ st ≠ 2 ∧ st ≠ 3 ∧ (st = 0 ∨ st = 1)) ∧
      simplebf_steps [43, 91, 45, 93]
        { heap := [{ start := 1, end_ := 3, next_in_list := none,
                     previous_in_stack := none }],
          first := some 0, current_in_list := some 0, current_in_stack := none } [] 5
        ≠ .crashed) :=
  ⟨by decide, by decide, no_defensive_error [43, 91, 45, 93] _ (by decide) (by decide) [] 5⟩

theorem steps_fixed (code : List Nat) (lps : loops) (input : List Nat) (n : Nat)
    (s : State) (h : simplebf_steps code lps input n = .running s)
    (hfix : step code lps s = .running s) (m : Nat) :
    simplebf_steps code lps input (n + m) = .running s := by
  induction m with
  | zero => exact h
  | succ m ih =>
    rw [← Nat.add_assoc, simplebf_steps, ih]
    exact hfix

theorem steps_mono (code : List Nat) (lps : loops) (input : List Nat) (n m : Nat)
    (s : State) (h : simplebf_steps code lps input n = .running s)
    (hfix : step code lps s = .running s) (hm : n ≤ m) :
    simplebf_steps code lps input m = .running s := by
  obtain ⟨d, rfl⟩ : ∃ d, m = n + d := ⟨m - n, by omega⟩
  exact steps_fixed code lps input n s h hfix d

/-- C14: the program `+[]` is accepted by `register_loops`, which returns an index for
it, and its run never ends: after every number of steps the run is still at the head
of the loop of `simplebf` (no status returned), with `pc` inside the program, and
nothing has been written. -/
theorem plus_empty_loop_forever :
    Balanced (instrs [43, 91, 93]) ∧
    ∃ r, register_loops [43, 91, 93] = .ok r ∧
      ∀ (input : List Nat) (n : Nat),
        ∃ s, simplebf_steps [43, 91, 93] r input n = .running s ∧ s.pc < 3 ∧
          s.output = [] := by
  refine ⟨by decide,
    { heap := [{ start := 1, end_ := 2, next_in_list := none, previous_in_stack := none }],
      first := some 0, current_in_list := some 0, current_in_stack := none },
    by decide, ?_⟩
  intro input n
  rw [steps_input _ _ input (by decide)]
  have h0 : ∃ s, simplebf_steps [43, 91, 93]
      { heap := [{ start := 1, end_ := 2, next_in_list := none,
                   previous_in_stack := none }],
        first := some 0, current_in_list := some 0, current_in_stack := none } [] 0
      = .running s ∧ s.pc < 3 ∧ s.output = [] := ⟨_, rfl, by decide, rfl⟩
  have h1 : ∃ s, simplebf_steps [43, 91, 93]
      { heap := [{ start := 1, end_ := 2, next_in_list := none,
                   previous_in_stack := none }],
        first := some 0, current_in_list := some 0, current_in_stack := none } [] 1
      = .running s ∧ s.pc < 3 ∧ s.output = [] := ⟨_, rfl, by decide, rfl⟩
  have h2 : ∃ s, simplebf_steps [43, 91, 93]
      { heap := [{ start := 1, end_ := 2, next_in_list := none,
                   previous_in_stack := none }],
        first := some 0, current_in_list := some 0, current_in_stack := none } [] 2
      = .running s ∧ step [43, 91, 93]
      { heap := [{ start := 1, end_ := 2, next_in_list := none,
                   previous_in_stack := none }],
        first := some 0, current_in_list := some 0, current_in_stack := none } s
      = .running s ∧ s.pc < 3 ∧ s.output = [] := ⟨_, rfl, rfl, by decide, rfl⟩
  have key : ∃ s, simplebf_steps [43, 91, 93]
      { heap := [{ start := 1, end_ := 2, next_in_list := none,
                   previous_in_stack := none }],
        first := some 0, current_in_list := some 0, current_in_stack := none } [] n
      = .running s ∧ s.pc < 3 ∧ s.output = [] := by
    rcases Nat.lt_or_ge n 2 with hn | hn
    · rcases Nat.lt_or_ge n 1 with hn1 | hn1
      · have : n = 0 := by omega
        subst this
        exact h0
      · have : n = 1 := by omega
        subst this
        exact h1
    · obtain ⟨s, hs, hfix, hp, ho⟩ := h2
      exact ⟨s, steps_mono _ _ _ 2 n s hs hfix hn, hp, ho⟩
  obtain ⟨s, hs, hp, ho⟩ := key
  rw [hs]
  exact ⟨{ s with input := input }, rfl, hp, ho⟩

/-! ## Runs that end, runs that do not, and end-of-input -/

/-- C13: the program `+[-]`, with the index `register_loops` builds for it, returns
status 0 after five iterations of the loop of `simplebf` on every input stream, with
the cell at position 0 equal to zero and no byte written; it stays so with more
fuel. -/
theorem plus_clear_terminates :
    ∃ r, register_loops [43, 91, 45, 93] = .ok r ∧
      ∀ input : List Nat,
        (∃ s, simplebf_steps [43, 91, 45, 93] r input 5 = .returned 0 s ∧
          cell s.blocks 0 = 0 ∧ s.output = []) ∧
        ∀ k : Nat, simplebf (5 + k) [43, 91, 45, 93] r input = some (0, []) := by
  refine ⟨{ heap := [{ start := 1, end_ := 3, next_in_list := none,
                       previous_in_stack := none }],
            first := some 0, current_in_list := some 0, current_in_stack := none },
    by decide, ?_⟩
  intro input
  have h5 : ∃ s, simplebf_steps [43, 91, 45, 93]
      { heap := [{ start := 1, end_ := 3, next_in_list := none,
                   previous_in_stack := none }],
        first := some 0, current_in_list := some 0, current_in_stack := none } [] 5
      = .returned 0 s ∧ cell s.blocks 0 = 0 ∧ s.output = [] := ⟨_, rfl, by decide, rfl⟩
  obtain ⟨s, hs, hc, ho⟩ := h5
  have hin := steps_input [43, 91, 45, 93]
      { heap := [{ start := 1, end_ := 3, next_in_list := none,
                   previous_in_stack := none }],
        first := some 0, current_in_list := some 0, current_in_stack := none } input
      (by decide) 5
  rw [hs] at hin
  refine ⟨⟨{ s with input := input }, hin, hc, ho⟩, ?_⟩
  intro k
  unfold simplebf
  rw [returned_stays _ _ _ 5 0 _ hin k]
  simp [ho]

theorem flat_step_comma (code : List Nat) (lps : loops) (fs : FlatState)
    (hc : code.getD fs.pc 0 = 44) :
    flat_step code lps fs = .running
      { fs with tape := tape_set fs.tape fs.dp (((getchar fs.input).1) % 256).toNat,
                input := (getchar fs.input).2, pc := fs.pc + 1 } := by
  unfold flat_step
  simp only [hc]
  rfl

/-- C15, as the code has it: in every state of a run whose `pc` is at `,`, when the
input stream has a next byte `b` the cell at the data pointer becomes `b` (`b mod 256`
for a value that is not a byte) and the byte is consumed; at end-of-input the cell
becomes 255, the value `EOF = -1` takes in an `unsigned char`. All other cells, the
data pointer and the output are unchanged, and `pc` advances by one. -/
theorem comma_step (code : List Nat) (lps : loops) (input : List Nat) (n : Nat)
    (s : State) (hreach : simplebf_steps code lps input n = .running s)
    (hc : code.getD s.pc 0 = 44) :
    ∃ s1, step code lps s = .running s1 ∧
      (∀ (b : Nat) (rest : List Nat), s.input = b :: rest →
        cell s1.blocks (dp s) = b % 256 ∧ (b < 256 → cell s1.blocks (dp s) = b) ∧
        s1.input = rest) ∧
      (s.input = [] → cell s1.blocks (dp s) = 255 ∧ s1.input = []) ∧
      (∀ i : Nat, i ≠ dp s → cell s1.blocks i = cell s.blocks i) ∧
      dp s1 = dp s ∧ s1.output = s.output ∧ s1.pc = s.pc + 1 := by
  have hok := reach_ok hreach
  have hsim := (step_sim code lps hok).1
  rw [flat_step_comma code lps (abs_state s) hc] at hsim
  obtain ⟨s1, hs1, habs⟩ := running_of_abs hsim
  have htape : cell s1.blocks =
      tape_set (cell s.blocks) (dp s) (((getchar s.input).1) % 256).toNat :=
    congrArg FlatState.tape habs
  have hinp : s1.input = (getchar s.input).2 := congrArg FlatState.input habs
  refine ⟨s1, hs1, ?_, ?_, ?_, congrArg FlatState.dp habs,
    congrArg FlatState.output habs, congrArg FlatState.pc habs⟩
  · intro b rest hb
    have hcell : cell s1.blocks (dp s) = b % 256 := by
      rw [htape, hb]
      simp only [tape_set, getchar, if_true]
      omega
    refine ⟨hcell, ?_, by rw [hinp, hb]; rfl⟩
    intro hlt
    rw [hcell]
    omega
  · intro hb
    refine ⟨?_, by rw [hinp, hb]; rfl⟩
    rw [htape, hb]
    simp only [tape_set, getchar, if_true]
    rfl
  · intro i hi
    rw [htape]
    simp only [tape_set, if_neg hi]

/-- The first state of the program `,` on the empty input, on which the amended C15 is
applied. -/
theorem comma_step_witness :
    simplebf_steps [44] no_loops [] 0 = .running (init_state []) ∧
    ([44] : List Nat).getD (init_state []).pc 0 = 44 ∧
    ∃ s1, step [44] no_loops (init_state []) = .running s1 ∧
      (∀ (b : Nat) (rest : List Nat), (init_state []).input = b :: rest →
        cell s1.blocks (dp (init_state [])) = b % 256 ∧
        (b < 256 → cell s1.blocks (dp (init_state [])) = b) ∧ s1.input = rest) ∧
      ((init_state []).input = [] →
        cell s1.blocks (dp (init_state [])) = 255 ∧ s1.input = []) ∧
      (∀ i : Nat, i ≠ dp (init_state []) →
        cell s1.blocks i = cell (init_state []).blocks i) ∧
      dp s1 = dp (init_state []) ∧ s1.output = (init_state []).output ∧
      s1.pc = (init_state []).pc + 1 :=
  ⟨rfl, rfl, comma_step [44] no_loops [] 0 (init_state []) rfl rfl⟩

/-- C15 fails on the program `,` at end-of-input: the cell at position 0 becomes 255,
not 0; and `,.` on the empty input writes the byte 255. -/
theorem comma_eof_counterexample :
    run_cell (simplebf_steps [44] no_loops [] 0) 0 = some 0 ∧
    run_pc (simplebf_steps [44] no_loops [] 0) = some 0 ∧
    run_cell (simplebf_steps [44] no_loops [] 1) 0 = some 255 ∧
    simplebf 3 [44, 46] no_loops [] = some (0, [255]) := by
  decide

/-! ## Allocation of the blocks -/

theorem poke_blocks {s s1 : State} {v : Nat} (h : poke s v = some s1) :
    s1.blocks.length = s.blocks.length := by
  unfold poke at h
  cases hb : s.blocks[s.mem]? with
  | none => rw [hb] at h; cases h
  | some b =>
    rw [hb] at h
    dsimp only at h
    by_cases hm : s.mc < MSIZE
    · rw [if_pos hm] at h
      cases h
      simp
    · rw [if_neg hm] at h
      cases h

/-- What one iteration of `simplebf` does to the heap of blocks: it leaves their
number as it is, or (at a `>` out of the last cell of the last block) it adds one
zeroed block and makes it the current one; a return leaves the state as it is. -/
theorem step_blocks (code : List Nat) (lps : loops) (s : State) :
    match step code lps s with
    | .running s1 =>
      s1.blocks.length = s.blocks.length ∨
      (s1.blocks.length = s.blocks.length + 1 ∧ s1.current_block = s.blocks.length ∧
        s1.mc = 0 ∧ code.getD s.pc 0 = 62 ∧
        ∀ b : memory_block, s1.blocks[s.blocks.length]? = some b → ∀ j : Nat, b.m j = 0)
    | .returned _ s1 => s1 = s
    | .crashed => True := by
  unfold step
  dsimp only
  by_cases h0 : code.getD s.pc 0 = 0
  · simp only [h0, if_true]
  by_cases h62 : code.getD s.pc 0 = 62
  · simp only [h62, Nat.reduceEqDiff, if_false, if_true]
    by_cases hm : s.mc + 1 = MSIZE
    · rw [if_pos hm]
      cases s.blocks[s.current_block]? with
      | none => trivial
      | some b =>
        dsimp only
        cases b.next with
        | some nx => exact Or.inl rfl
        | none =>
          refine Or.inr ⟨?_, rfl, rfl, trivial, ?_⟩
          · simp [new_memory_block, set_next_length]
          · intro b1 hb1
            simp only [new_memory_block, set_next_getElem?,
              List.getElem?_concat_length, Option.map_some', Option.some.injEq] at hb1
            subst hb1
            intro j
            split <;> rfl
    · rw [if_neg hm]
      exact Or.inl rfl
  by_cases h60 : code.getD s.pc 0 = 60
  · simp only [h60, Nat.reduceEqDiff, if_false, if_true]
    by_cases hm : s.mc = 0
    · rw [if_pos hm]
      cases s.blocks[s.current_block]? with
      | none => trivial
      | some b =>
        dsimp only
        cases b.previous with
        | some pv => exact Or.inl rfl
        | none => rfl
    · rw [if_neg hm]
      exact Or.inl rfl
  by_cases h43 : code.getD s.pc 0 = 43
  · simp only [h43, Nat.reduceEqDiff, if_false, if_true]
    cases peek s with
    | none => trivial
    | some v =>
      dsimp only
      cases hp : poke s ((v + 1) % 256) with
      | none => trivial
      | some s1 => exact Or.inl (poke_blocks hp : s1.blocks.length = s.blocks.length)
  by_cases h45 : code.getD s.pc 0 = 45
  · simp only [h45, Nat.reduceEqDiff, if_false, if_true]
    cases peek s with
    | none => trivial
    | some v =>
      dsimp only
      cases hp : poke s (((v : Int) - 1) % 256).toNat with
      | none => trivial
      | some s1 => exact Or.inl (poke_blocks hp : s1.blocks.length = s.blocks.length)
  by_cases h46 : code.getD s.pc 0 = 46
  · simp only [h46, Nat.reduceEqDiff, if_false, if_true]
    cases peek s with
    | none => trivial
    | some v => exact Or.inl rfl
  by_cases h44 : code.getD s.pc 0 = 44
  · simp only [h44, Nat.reduceEqDiff, if_false, if_true]
    cases hp : poke s (((getchar s.input).1) % 256).toNat with
    | none => trivial
    | some s1 => exact Or.inl (poke_blocks hp : s1.blocks.length = s.blocks.length)
  by_cases h91 : code.getD s.pc 0 = 91
  · simp only [h91, Nat.reduceEqDiff, if_false, if_true]
    cases peek s with
    | none => trivial
    | some v =>
      dsimp only
      by_cases hv : v = 0
      · rw [if_pos hv]
        cases find_loop_by_start lps s.pc with
        | none => trivial
        | some o =>
          cases o with
          | none => rfl
          | some l => exact Or.inl rfl
      · rw [if_neg hv]
        exact Or.inl rfl
  by_cases h93 : code.getD s.pc 0 = 93
  · simp only [h93, Nat.reduceEqDiff, if_false, if_true]
    cases peek s with
    | none => trivial
    | some v =>
      dsimp only
      by_cases hv : v ≠ 0
      · rw [if_pos hv]
        cases find_loop_by_end lps s.pc with
        | none => trivial
        | some o =>
          cases o with
          | none => rfl
          | some l => exact Or.inl rfl
      · rw [if_neg hv]
        exact Or.inl rfl
  · simp only [h0, h62, h60, h43, h45, h46, h44, h91, h93, if_false]

theorem run_dp_le_max (code : List Nat) (lps : loops) (input : List Nat) (n : Nat) :
    run_dp (simplebf_steps code lps input n) ≤ max_dp code lps input n := by
  cases n with
  | zero => exact Nat.le_refl _
  | succ n =>
    rw [max_dp]
    exact Nat.le_max_right _ _

theorem state_ok {code : List Nat} {lps : loops} {input : List Nat} {n : Nat} {s : State}
    (h : run_state (simplebf_steps code lps input n) = some s) : TapeOK s := by
  have hok := (steps_sim code lps input n).2
  cases hx : simplebf_steps code lps input n with
  | running s0 =>
    rw [hx] at h hok
    cases h
    exact hok
  | returned st s0 =>
    rw [hx] at h hok
    cases h
    exact hok
  | crashed =>
    rw [hx] at h
    cases h

theorem dp_lt_blocks {s : State} (h : TapeOK s) : dp s < s.blocks.length * MSIZE := by
  have h1 := h.cur
  have h2 := h.mc
  unfold dp
  calc s.current_block * MSIZE + s.mc < s.current_block * MSIZE + MSIZE := by omega
    _ = (s.current_block + 1) * MSIZE := by rw [Nat.add_mul, Nat.one_mul]
    _ ≤ s.blocks.length * MSIZE := Nat.mul_le_mul_right _ h1

/-- The number of blocks after `n` steps, from the largest position reached. -/
theorem blocks_count (code : List Nat) (lps : loops) (input : List Nat) : ∀ (n : Nat)
    (s : State), run_state (simplebf_steps code lps input n) = some s →
    s.blocks.length = max_dp code lps input n / MSIZE + 1 := by
  intro n
  induction n with
  | zero =>
    intro s hs
    have h0 : run_state (simplebf_steps code lps input 0) = some (init_state input) := rfl
    rw [h0] at hs
    cases hs
    have hm : max_dp code lps input 0 = 0 := by
      show dp (init_state input) = 0
      simp [dp, init_state]
    rw [hm]
    simp [init_state]
  | succ n ih =>
    intro s hs
    have hok := state_ok hs
    have hlt := dp_lt_blocks hok
    have hdp : run_dp (simplebf_steps code lps input (n + 1)) = dp s := by
      unfold run_dp
      rw [hs]
    rw [max_dp, hdp]
    rw [simplebf_steps] at hs
    have hle := run_dp_le_max code lps input n
    cases hprev : simplebf_steps code lps input n with
    | crashed => rw [hprev] at hs; cases hs
    | returned st s0 =>
      rw [hprev] at hs hle
      cases hs
      have := ih s (by rw [hprev]; rfl)
      have hle' : dp s ≤ max_dp code lps input n := hle
      rw [Nat.max_eq_left hle']
      exact this
    | running s0 =>
      rw [hprev] at hs hle
      have hlen0 := ih s0 (by rw [hprev]; rfl)
      have hle' : dp s0 ≤ max_dp code lps input n := hle
      have hb := step_blocks code lps s0
      simp only [advance] at hs
      cases hstep : step code lps s0 with
      | crashed => rw [hstep] at hs; cases hs
      | returned st s1 =>
        rw [hstep] at hs hb
        cases hs
        simp only at hb
        subst hb
        rw [Nat.max_eq_left hle']
        exact hlen0
      | running s1 =>
        rw [hstep] at hs hb
        cases hs
        simp only at hb
        rcases hb with hb | ⟨hb, hcur, hmc, _, _⟩
        · rw [hb] at hlt ⊢
          rw [hlen0] at hlt ⊢
          unfold MSIZE at *
          omega
        · have hdps : dp s = s0.blocks.length * MSIZE := by
            unfold dp
            rw [hcur, hmc, Nat.add_zero]
          rw [hb, hdps, hlen0]
          unfold MSIZE at *
          omega

/-- C18: at every point of every run of `simplebf` the number of allocated blocks is
`M / MSIZE + 1`, `M` being the largest data pointer position reached so far. From one
step to the next the number of blocks never decreases; when it grows it grows by one,
the pointer has just entered the new block, beyond every position reached before, and
the new block is all zeros. -/
theorem blocks_follow_max_dp (code : List Nat) (lps : loops) (input : List Nat) (n : Nat)
    (s : State) (hs : run_state (simplebf_steps code lps input n) = some s) :
    s.blocks.length = max_dp code lps input n / MSIZE + 1 ∧
    ∀ s1 : State, run_state (simplebf_steps code lps input (n + 1)) = some s1 →
      s.blocks.length ≤ s1.blocks.length ∧
      (s.blocks.length < s1.blocks.length →
        s1.blocks.length = s.blocks.length + 1 ∧
        max_dp code lps input n < dp s1 ∧ dp s1 / MSIZE = s.blocks.length ∧
        ∀ b : memory_block, s1.blocks[s.blocks.length]? = some b →
          ∀ j : Nat, b.m j = 0) := by
  have hcount := blocks_count code lps input n s hs
  refine ⟨hcount, ?_⟩
  intro s1 hs1
  rw [simplebf_steps] at hs1
  cases hprev : simplebf_steps code lps input n with
  | crashed => rw [hprev] at hs; cases hs
  | returned st s0 =>
    rw [hprev] at hs hs1
    cases hs
    cases hs1
    exact ⟨Nat.le_refl _, fun h => absurd h (Nat.lt_irrefl _)⟩
  | running s0 =>
    rw [hprev] at hs hs1
    cases hs
    have hb := step_blocks code lps s
    simp only [advance] at hs1
    cases hstep : step code lps s with
    | crashed => rw [hstep] at hs1; cases hs1
    | returned st s2 =>
      rw [hstep] at hs1 hb
      cases hs1
      simp only at hb
      subst hb
      exact ⟨Nat.le_refl _, fun h => absurd h (Nat.lt_irrefl _)⟩
    | running s2 =>
      rw [hstep] at hs1 hb
      cases hs1
      simp only at hb
      rcases hb with hb | ⟨hb, hcur, hmc, _, hzero⟩
      · rw [hb]
        exact ⟨Nat.le_refl _, fun h => absurd h (Nat.lt_irrefl _)⟩
      · refine ⟨by omega, fun _ => ⟨hb, ?_, ?_, hzero⟩⟩
        · unfold dp
          rw [hcur, hmc, Nat.add_zero, hcount]
          unfold MSIZE
          omega
        · unfold dp
          rw [hcur, hmc, Nat.add_zero]
          unfold MSIZE
          omega

/-- The program `>` in its first state, on which C18 is applied. -/
theorem blocks_follow_max_dp_witness :
    run_state (simplebf_steps [62] no_loops [] 0) = some (init_state []) ∧
    ((init_state []).blocks.length = max_dp [62] no_loops [] 0 / MSIZE + 1 ∧
    ∀ s1 : State, run_state (simplebf_steps [62] no_loops [] (0 + 1)) = some s1 →
      (init_state []).blocks.length ≤ s1.blocks.length ∧
      ((init_state []).blocks.length < s1.blocks.length →
        s1.blocks.length = (init_state []).blocks.length + 1 ∧
        max_dp [62] no_loops [] 0 < dp s1 ∧
        dp s1 / MSIZE = (init_state []).blocks.length ∧
        ∀ b : memory_block, s1.blocks[(init_state []).blocks.length]? = some b →
          ∀ j : Nat, b.m j = 0)) :=
  ⟨rfl, blocks_follow_max_dp [62] no_loops [] 0 (init_state []) rfl⟩

/-- C19: in every run of `simplebf`, at the head of the loop (the start of every
instruction) `mc < MSIZE`, the current block is an allocated block and `mem` is its
array; hence the read `mem[mc]` and the write `mem[mc] = v` of `+`, `-`, `.`, `,`, `[`
and `]` are inside an allocated block: they succeed, on the cell at the data
pointer. -/
theorem access_in_block (code : List Nat) (lps : loops) (input : List Nat) (n : Nat)
    (s : State) (hreach : simplebf_steps code lps input n = .running s) :
    s.mc < MSIZE ∧ s.current_block < s.blocks.length ∧ s.mem = s.current_block ∧
    peek s = some (cell s.blocks (dp s)) ∧
    (∀ v : Nat, ∃ s1, poke s v = some s1 ∧
      cell s1.blocks = tape_set (cell s.blocks) (dp s) v) ∧
    (step code lps s = .crashed →
      (code.getD s.pc 0 = 91 ∧ find_loop_by_start lps s.pc = none) ∨
      (code.getD s.pc 0 = 93 ∧ find_loop_by_end lps s.pc = none)) := by
  have hok := reach_ok hreach
  refine ⟨hok.mc, hok.cur, hok.mem, peek_eq hok, ?_, ?_⟩
  · intro v
    obtain ⟨s1, h1, _, h3, _⟩ := poke_eq hok v
    exact ⟨s1, h1, h3⟩
  · intro hcr
    have hsim := (step_sim code lps hok).1
    have hcases := flat_step_cases code lps (abs_state s)
    rw [← hsim, hcr] at hcases
    exact hcases

/-- The first state of the program `+`, on which C19 is applied. -/
theorem access_in_block_witness :
    simplebf_steps [43] no_loops [] 0 = .running (init_state []) ∧
    ((init_state []).mc < MSIZE ∧
    (init_state []).current_block < (init_state []).blocks.length ∧
    (init_state []).mem = (init_state []).current_block ∧
    peek (init_state []) = some (cell (init_state []).blocks (dp (init_state []))) ∧
    (∀ v : Nat, ∃ s1, poke (init_state []) v = some s1 ∧
      cell s1.blocks = tape_set (cell (init_state []).blocks) (dp (init_state [])) v) ∧
    (step [43] no_loops (init_state []) = .crashed →
      (([43] : List Nat).getD (init_state []).pc 0 = 91 ∧
        find_loop_by_start no_loops (init_state []).pc = none) ∨
      (([43] : List Nat).getD (init_state []).pc 0 = 93 ∧
        find_loop_by_end no_loops (init_state []).pc = none))) :=
  ⟨rfl, access_in_block [43] no_loops [] 0 (init_state []) rfl⟩

/-- C20: for every instruction sequence in which no `]` meets an empty stack,
`register_loops` returns an index, and for every `[` at a position `s` that is never
closed (no position is its true matching close) the loop found for `s` has `end = 0`;
so a step of `simplebf` at that `[` with a zero cell continues at position 1, the
tape, the data pointer and the output unchanged. The program `>[` is an example: its
run never ends, it stays at the `[` at position 1 and writes nothing. -/
theorem unclosed_loop_end_zero (code : List Nat) (d : Nat)
    (hd : depth_after (instrs code) 0 = some d) :
    (∃ r, register_loops code = .ok r ∧
      ∀ s : Nat, (instrs code)[s]? = some 91 → (∀ e : Nat, ¬ TrueMatch (instrs code) s e) →
        ∃ l, find_loop_by_start r s = some (some l) ∧ l.start = s ∧ l.end_ = 0 ∧
          ∀ (input : List Nat) (n : Nat) (st : State),
            simplebf_steps code r input n = .running st → st.pc = s →
            cell st.blocks (dp st) = 0 →
            ∃ st1, step code r st = .running st1 ∧ st1.pc = 1 ∧
              cell st1.blocks = cell st.blocks ∧ dp st1 = dp st ∧
              st1.output = st.output) ∧
    (∃ r2, register_loops [62, 91] = .ok r2 ∧
      ∀ (input : List Nat) (n : Nat),
        ∃ st, simplebf_steps [62, 91] r2 input n = .running st ∧ st.pc ≤ 1 ∧
          st.output = []) := by
  constructor
  · obtain ⟨r, stk, hr, hinv, _⟩ := register_loops_inv code d hd
    refine ⟨r, hr, ?_⟩
    intro s hs hno
    obtain ⟨k, hk⟩ := hinv.abs.opens_cover s hs
    obtain ⟨l, hl, hls⟩ := heap_of_start hk
    have hfs := find_start_of_inv hinv hl
    rw [hls] at hfs
    have hpend : k ∈ stk := by
      by_contra hn
      obtain ⟨h1, h2, h3⟩ := hinv.abs.closed k l.start l.end_ (heap_fields hl).1
        (heap_fields hl).2 hn
      rw [hls] at h1 h3
      exact hno l.end_ ⟨h1, hs, h2, h3⟩
    have hend := pending_end hinv hl hpend
    refine ⟨l, hfs, hls, hend, ?_⟩
    intro input n st hreach hpc hz
    have hc : code.getD st.pc 0 = 91 := by rw [hpc]; exact instrs_getD hs
    have hflat := (flat_step_open code r (abs_state st) hc).2 hz l (by rw [← hpc] at hfs; exact hfs)
    obtain ⟨st1, h1, h2, h3, h4, h5, _⟩ :=
      step_of_flat_jump code r (reach_ok hreach) (l.end_ + 1) hflat
    exact ⟨st1, h1, by rw [h2, hend], h3, h4, h5⟩
  · refine ⟨{ heap := [{ start := 1, end_ := 0, next_in_list := none,
                         previous_in_stack := none }],
              first := some 0, current_in_list := some 0, current_in_stack := some 0 },
      by decide, ?_⟩
    intro input n
    rw [steps_input _ _ input (by decide)]
    have h0 : ∃ st, simplebf_steps [62, 91]
        { heap := [{ start := 1, end_ := 0, next_in_list := none,
                     previous_in_stack := none }],
          first := some 0, current_in_list := some 0, current_in_stack := some 0 } [] 0
        = .running st ∧ st.pc ≤ 1 ∧ st.output = [] := ⟨_, rfl, by decide, rfl⟩
    have h1 : ∃ st, simplebf_steps [62, 91]
        { heap := [{ start := 1, end_ := 0, next_in_list := none,
                     previous_in_stack := none }],
          first := some 0, current_in_list := some 0, current_in_stack := some 0 } [] 1
        = .running st ∧ step [62, 91]
        { heap := [{ start := 1, end_ := 0, next_in_list := none,
                     previous_in_stack := none }],
          first := some 0, current_in_list := some 0, current_in_stack := some 0 } st
        = .running st ∧ st.pc ≤ 1 ∧ st.output = [] := ⟨_, rfl, rfl, by decide, rfl⟩
    have key : ∃ st, simplebf_steps [62, 91]
        { heap := [{ start := 1, end_ := 0, next_in_list := none,
                     previous_in_stack := none }],
          first := some 0, current_in_list := some 0, current_in_stack := some 0 } [] n
        = .running st ∧ st.pc ≤ 1 ∧ st.output = [] := by
      rcases Nat.lt_or_ge n 1 with hn | hn
      · have : n = 0 := by omega
        subst this
        exact h0
      · obtain ⟨st, hs, hfix, hp, ho⟩ := h1
        exact ⟨st, steps_mono _ _ _ 1 n st hs hfix hn, hp, ho⟩
    obtain ⟨st, hs, hp, ho⟩ := key
    rw [hs]
    exact ⟨{ st with input := input }, rfl, hp, ho⟩

/-- The program `>[`, whose `[` is never closed, on which C20 is applied. -/
theorem unclosed_loop_end_zero_witness :
    depth_after (instrs [62, 91]) 0 = some 1 ∧
    ((∃ r, register_loops [62, 91] = .ok r ∧
      ∀ s : Nat, (instrs [62, 91])[s]? = some 91 →
        (∀ e : Nat, ¬ TrueMatch (instrs [62, 91]) s e) →
        ∃ l, find_loop_by_start r s = some (some l) ∧ l.start = s ∧ l.end_ = 0 ∧
          ∀ (input : List Nat) (n : Nat) (st : State),
            simplebf_steps [62, 91] r input n = .running st → st.pc = s →
            cell st.blocks (dp st) = 0 →
            ∃ st1, step [62, 91] r st = .running st1 ∧ st1.pc = 1 ∧
              cell st1.blocks = cell st.blocks ∧ dp st1 = dp st ∧
              st1.output = st.output) ∧
    (∃ r2, register_loops [62, 91] = .ok r2 ∧
      ∀ (input : List Nat) (n : Nat),
        ∃ st, simplebf_steps [62, 91] r2 input n = .running st ∧ st.pc ≤ 1 ∧
          st.output = [])) :=
  ⟨by decide, unclosed_loop_end_zero [62, 91] 1 (by decide)⟩

/-! ## The program as the loader hands it over -/

set_option maxRecDepth 100000 in
/-- C16 at the source file of 23 `+` and one `.` (24 bytes, all of them instructions):
`walk_fd` stores the 24 bytes and no NUL, so the buffer `fill_program_array` returns
goes on with what the memory holds after them, here the byte 81. `register_loops`
returns an index for that buffer, and `simplebf` executes the 24 instructions, writes
the byte 23, dispatches the byte 81 and returns 4 from its `default` branch; on the
same instructions followed by a NUL it returns 0. -/
theorem unterminated_program_returns_4 :
    walk_fd (List.replicate 23 43 ++ [46]) = some (List.replicate 23 43 ++ [46]) ∧
    (∀ c ∈ List.replicate 23 43 ++ [46], is_instr c = true) ∧
    fill_program_array (List.replicate 23 43 ++ [46]) (List.replicate 24 0 ++ [81]) =
      some (List.replicate 23 43 ++ [46] ++ [81]) ∧
    register_loops (List.replicate 23 43 ++ [46] ++ [81]) = .ok no_loops ∧
    simplebf 25 (List.replicate 23 43 ++ [46] ++ [81]) no_loops [] = some (4, [23]) ∧
    simplebf 25 (List.replicate 23 43 ++ [46] ++ [0]) no_loops [] = some (0, [23]) := by
  decide

end SimpleBF
